import Mathlib

/-!
Prefix tree (`trie.c`): shallow embedding and verified properties

The embedding follows `src/c_dsa_equivalent/trie.c`.

* A C `char` is represented by its integer code (the value that reaches
  `tolower` after integer promotion); a C string is the list of the codes
  before its terminating NUL, so a list that denotes a C string holds no `0`.
  `str` turns a Lean string literal into such a list.
* A value of `TrieNode` is what a `TrieNode *` points to: `null` for `NULL`,
  `node children is_end_of_word word` for an allocated node.  The structure
  owns its nodes exclusively (no sharing, no cycles), so the heap is
  represented by the tree of values and the in-place updates of the C code by
  rebuilding the walked path.
* `is_end_of_word` only ever holds `0` or `1` and is a `Bool`.
* `word_count` is a C `int`; it is an `Int` here (signed overflow is
  undefined in C and is out of reach for any trie that fits in memory).
* The 256-byte buffers (`word`, `buffer`, `results[i]`) are lists, which is
  what the C code computes while every string written to them has at most 255
  characters.  Beyond that the C code writes past the array and has no
  defined behaviour, so nothing is stated there: a statement that reaches
  `strcpy(current->word, word)` bounds the word by 255 characters
  (`ValidWord`, `Op.in_bounds`), and a statement that reaches the traversal
  `trie_prefix_dfs` bounds the depth of the trie by 255 (`within_depth`).
* Every function dereferences `trie->root` without a test, and `trie_create`
  always allocates it.  A statement about an arbitrary trie that depends on
  the root being allocated says so with `t.root.is_null = false`; the `null`
  equations of the loops are never reached from an allocated root, since a
  child is entered only after its `NULL` test.
* String arguments are non-`NULL` pointers.
-/

namespace TrieC

/-- Number of child slots of a node (`#define ALPHABET_SIZE 26`). -/
abbrev ALPHABET_SIZE : Nat := 26

/-- The pointee of a `TrieNode *`: `NULL`, or a node with its 26 child
pointers, its end-of-word flag and its stored word. -/
inductive TrieNode where
  | null : TrieNode
  | node (children : Fin 26 → TrieNode) (is_end_of_word : Bool) (word : List Int) : TrieNode

/-- The `Trie` record: root pointer and live-word counter. -/
structure Trie where
  root : TrieNode
  word_count : Int

/-- Codes of the characters of a string literal. -/
def str (s : String) : List Int := s.toList.map (fun c => (c.toNat : Int))

/-- The function `tolower` of the C locale on character codes. -/
def tolower (c : Int) : Int := if 65 ≤ c ∧ c ≤ 90 then c + 32 else c

/-- `char_to_index`: `tolower(c) - 'a'`. -/
def char_to_index (c : Int) : Int := tolower c - 97

/-- The range check every loop applies to `index = char_to_index(c)`:
`none` when `index < 0 || index >= ALPHABET_SIZE`, otherwise the index as a
position of the `children` array. -/
def checked_index (c : Int) : Option (Fin 26) :=
  let index := char_to_index c
  if h : index < 0 ∨ index ≥ ALPHABET_SIZE then none
  else some ⟨index.toNat, by simp only [ALPHABET_SIZE] at h; omega⟩

/-- Test `p == NULL`. -/
def TrieNode.is_null : TrieNode → Bool
  | .null => true
  | .node _ _ _ => false

/-- Field `is_end_of_word` of an allocated node. -/
def TrieNode.is_end_of_word : TrieNode → Bool
  | .null => false
  | .node _ e _ => e

/-- Field `word` of an allocated node. -/
def TrieNode.word : TrieNode → List Int
  | .null => []
  | .node _ _ w => w

/-- Field `children[i]` of an allocated node. -/
def TrieNode.child : TrieNode → Fin 26 → TrieNode
  | .null, _ => .null
  | .node ch _ _, i => ch i

/-- `trie_node_create`: all children `NULL`, flag `0`, empty word. -/
def trie_node_create : TrieNode := .node (fun _ => .null) false []

/-- `trie_create`: a fresh root and `word_count = 0`. -/
def trie_create : Trie := { root := trie_node_create, word_count := 0 }

/-- The loop of `trie_insert` from node `current` over the remaining
characters; `word` is the whole argument, copied into the final node.
Returns the updated subtree and whether `word_count` is incremented.
`current` is never `NULL` in the C code.  The copy is
`strcpy(current->word, word)` into `char word[256]`: this equation is the C
code for a `word` of at most 255 characters, and the C code is undefined when
a longer word reaches the copy. -/
def insert_loop (word : List Int) : List Int → TrieNode → TrieNode × Bool
  | _, .null => (.null, false)
  | [], .node ch e w =>
      if !e then (.node ch true word, true) else (.node ch e w, false)
  | c :: rest, .node ch e w =>
      match checked_index c with
      | none => (.node ch e w, false)
      | some i =>
          let child := if (ch i).is_null then trie_node_create else ch i
          let r := insert_loop word rest child
          (.node (Function.update ch i r.1) e w, r.2)

/-- The function `trie_insert`. -/
def trie_insert (trie : Trie) (word : List Int) : Trie :=
  if word.length = 0 then trie
  else
    let r := insert_loop word word trie.root
    { root := r.1, word_count := if r.2 then trie.word_count + 1 else trie.word_count }

/-- The walking loop that `trie_search` and `trie_search_prefix` share with
identical text: `none` when a character is out of range or a child is
`NULL`, otherwise the node reached. -/
def walk : List Int → TrieNode → Option TrieNode
  | _, .null => none
  | [], .node ch e w => some (.node ch e w)
  | c :: rest, .node ch _ _ =>
      match checked_index c with
      | none => none
      | some i => if (ch i).is_null then none else walk rest (ch i)

/-- The function `trie_search`. -/
def trie_search (trie : Trie) (word : List Int) : Bool :=
  if word.length = 0 then false
  else
    match walk word trie.root with
    | none => false
    | some current => current.is_end_of_word

/-- The function `trie_prefix_dfs`.  The list `results` stands for the filled
part of the result array, `*result_count` being its length; `pfx` is the
content of the path buffer up to `prefix_len`.  The path buffer is
`char buffer[256]` and a row of the result array has 256 bytes: these
equations are the C code while every node below `node` lies at depth at most
255 of the trie, and the C code is undefined below a deeper node. -/
def trie_prefix_dfs : TrieNode → List Int → List (List Int) → List (List Int)
  | .null, _, results => results
  | .node ch e _, pfx, results =>
      if results.length ≥ 100 then results
      else
        (List.finRange 26).foldl
          (fun acc i =>
            if (ch i).is_null then acc
            else trie_prefix_dfs (ch i) (pfx ++ [97 + (i.val : Int)]) acc)
          (if e then results ++ [pfx] else results)

/-- The function `trie_search_prefix`: the strings written to `results`; the
returned count is the length of this list. -/
def trie_search_prefix (trie : Trie) (pfx : List Int) : List (List Int) :=
  if pfx.length = 0 then []
  else
    match walk pfx trie.root with
    | none => []
    | some current => trie_prefix_dfs current pfx []

/-- The collection done by `trie_print`: the traversal from the root with
`prefix_len = 0`. -/
def trie_print (trie : Trie) : List (List Int) :=
  trie_prefix_dfs trie.root [] []

/-- The loop of `trie_delete` from node `current`: the updated subtree and
whether `word_count` is decremented. -/
def delete_loop : List Int → TrieNode → TrieNode × Bool
  | _, .null => (.null, false)
  | [], .node ch e w =>
      if e then (.node ch false w, true) else (.node ch e w, false)
  | c :: rest, .node ch e w =>
      match checked_index c with
      | none => (.node ch e w, false)
      | some i =>
          if (ch i).is_null then (.node ch e w, false)
          else
            let r := delete_loop rest (ch i)
            (.node (Function.update ch i r.1) e w, r.2)

/-- The function `trie_delete`. -/
def trie_delete (trie : Trie) (word : List Int) : Trie :=
  if word.length = 0 then trie
  else
    let r := delete_loop word trie.root
    { root := r.1, word_count := if r.2 then trie.word_count - 1 else trie.word_count }

/-! ## Specification-side notions -/

/-- ASCII letters `A`-`Z` and `a`-`z`. -/
def is_letter (c : Int) : Prop := (65 ≤ c ∧ c ≤ 90) ∨ (97 ≤ c ∧ c ≤ 122)

instance : DecidablePred is_letter := fun c => by unfold is_letter; infer_instance

/-- Case folding of a string: every character through `tolower`. -/
def fold (w : List Int) : List Int := w.map tolower

/-- The sequence of child positions a string selects (`none` at a character
that fails the range check). -/
def key (w : List Int) : List (Option (Fin 26)) := w.map checked_index

/-- The end-of-word flag of the node a walk from `current` reaches, `false`
when the walk fails. -/
def terminal_at (current : TrieNode) (w : List Int) : Bool :=
  match walk w current with
  | none => false
  | some n => n.is_end_of_word

/-- A call of the interface: `trie_insert` or `trie_delete` with its argument. -/
inductive Op where
  | insert (word : List Int) : Op
  | delete (word : List Int) : Op

/-- The string argument of a call. -/
def Op.arg : Op → List Int
  | .insert w => w
  | .delete w => w

/-- Effect of one call on the trie. -/
def apply_op (t : Trie) : Op → Trie
  | .insert w => trie_insert t w
  | .delete w => trie_delete t w

/-- The trie reached from `trie_create` by a sequence of calls. -/
def run (ops : List Op) : Trie := ops.foldl apply_op trie_create

/-- The call writes no string of more than 255 characters into the `word`
field of a node.  `trie_insert` reaches `strcpy(current->word, word)` only
when every character of its argument passes the range check, so the call is
within bounds when a letters-only argument has at most 255 characters; an
insert stopped by a character out of range and a delete copy nothing. -/
def Op.in_bounds : Op → Prop
  | .insert w => (∀ c ∈ w, is_letter c) → w.length ≤ 255
  | .delete _ => True

instance (op : Op) : Decidable op.in_bounds := by
  cases op <;> unfold Op.in_bounds <;> infer_instance

/-- Whether every downward path of allocated nodes that starts at `node` has
at most `k` nodes.  With `k = 256` at the root (depth 0) every node of the
trie lies at depth at most 255, so every path, with its terminating NUL, fits
the 256-byte path buffer and a row of the result array. -/
def within_depth : Nat → TrieNode → Bool
  | _, .null => true
  | 0, .node _ _ _ => false
  | k + 1, .node ch _ _ => (List.finRange 26).all (fun i => within_depth k (ch i))

/-- Every stored word of the subtree has at most 255 characters, as the
`char word[256]` field of a node requires. -/
def words_fit : TrieNode → Prop
  | .null => True
  | .node ch _ w => w.length ≤ 255 ∧ ∀ i, words_fit (ch i)

/-- A valid word: non-empty, ASCII letters only, at most 255 characters. -/
def ValidWord (w : List Int) : Prop :=
  w ≠ [] ∧ (∀ c ∈ w, is_letter c) ∧ w.length ≤ 255

instance (w : List Int) : Decidable (ValidWord w) := by unfold ValidWord; infer_instance

/-- The word `w` is live after the calls `ops`: some insert of a word
case-fold-equal to `w` occurs in `ops` with no later delete of a word
case-fold-equal to `w`. -/
def LiveIn (ops : List Op) (w : List Int) : Prop :=
  ∃ before v after, ops = before ++ Op.insert v :: after ∧ fold v = fold w ∧
    ∀ u, Op.delete u ∈ after → fold u ≠ fold w

/-- Lower-case ASCII letters `a`-`z`. -/
def is_lower (c : Int) : Prop := 97 ≤ c ∧ c ≤ 122

instance : DecidablePred is_lower := fun c => by unfold is_lower; infer_instance

/-- The complete enumeration below a node: the traversal of
`trie_prefix_dfs` without the cap of 100 results. -/
def live_words_from : TrieNode → List Int → List (List Int)
  | .null, _ => []
  | .node ch e _, pfx =>
      (if e then [pfx] else []) ++
        (List.finRange 26).flatMap
          (fun i => live_words_from (ch i) (pfx ++ [97 + (i.val : Int)]))

/-- The live words of a trie, lower-cased: the words spelled by the paths
from the root to the nodes whose flag is set, in enumeration order. -/
def live_words (t : Trie) : List (List Int) := live_words_from t.root []

/-- The live words of a trie that start with the case-folded prefix `p`. -/
def live_matches (t : Trie) (p : List Int) : List (List Int) :=
  (live_words t).filter (fun s => (fold p).isPrefixOf s)

/-- Effect of one call on the set of case-folded live words: a call with an
empty argument or a non-letter adds and removes nothing. -/
def live_step (S : List (List Int)) : Op → List (List Int)
  | .insert v =>
      if v ≠ [] ∧ (∀ c ∈ v, is_letter c) ∧ fold v ∉ S then S ++ [fold v] else S
  | .delete v => S.filter (fun s => s ≠ fold v)

/-- The set of case-folded live words after a sequence of calls, as a
duplicate-free list. -/
def live_set (ops : List Op) : List (List Int) := ops.foldl live_step []

/-- Number of live words, after a sequence of calls, whose case-folded form
starts with the case-folded prefix `p`. -/
def live_count (ops : List Op) (p : List Int) : Nat :=
  ((live_set ops).filter (fun s => (fold p).isPrefixOf s)).length

/-- Inserts of the 104 three-letter words `x??` with second letter `a`-`d`. -/
def cap_example_ops : List Op :=
  (List.range 4).flatMap
    (fun a => (List.range 26).map (fun b => Op.insert [120, 97 + (a : Int), 97 + (b : Int)]))

/-- The stored word of the node a walk from `current` reaches, empty when the
walk fails. -/
def label_at (current : TrieNode) (w : List Int) : List Int :=
  match walk w current with
  | none => []
  | some n => n.word

/-- Whether a walk from `current` along `w` reaches an allocated node. -/
def has_node (current : TrieNode) (w : List Int) : Bool :=
  (walk w current).isSome

/-- The argument of the first insert call, in a sequence of calls, of a word
case-fold-equal to `w`. -/
def first_insert (ops : List Op) (w : List Int) : Option (List Int) :=
  (ops.filterMap (fun op =>
    match op with
    | .insert v => if fold v = fold w then some v else none
    | .delete _ => none)).head?

/-- The character printed by the loop of `trie_insert` (`printf("Invalid
character: %c\n", word[i])`): the first character that fails the range
check, `none` when nothing is printed.  The loop leaves early at no other
place, a missing child being created. -/
def insert_loop_printed : List Int → Option Int
  | [] => none
  | c :: rest =>
      match checked_index c with
      | none => some c
      | some _ => insert_loop_printed rest

/-- What a call of `trie_insert` prints. -/
def trie_insert_printed (word : List Int) : Option Int :=
  if word.length = 0 then none else insert_loop_printed word

/-- The words inserted by `main`, in order. -/
def scenario_words : List (List Int) :=
  [str "cat", str "car", str "card", str "care", str "careful", str "apple", str "app",
    str "apply"]

/-- The trie of `main` after its inserts. -/
def scenario : Trie := scenario_words.foldl trie_insert trie_create

/-- The same tree with every `is_end_of_word` flag cleared: the nodes, the
child links and the stored words of a tree. -/
def clear_flags : TrieNode → TrieNode
  | .null => .null
  | .node ch _ w => .node (fun i => clear_flags (ch i)) false w

end TrieC

/-!
Binary min-heap (`min_heap.c`): shallow embedding

The embedding follows `src/c_dsa_equivalent/min_heap.c`.

* The array `heap->items` is a map from index to item; the code reads and
  writes it only below `capacity` while `size <= capacity`.
* Indices and `size` are natural numbers (they are never negative in the
  code; the argument of `min_heap_delete` is an integer, tested for its
  sign); `2 * index + 2` stays in the range of `int` for every heap of fewer
  than 2^30 items.
* `value` is a C `int`, only compared and copied, and is an integer here.
* A function returns the new heap together with its `int` result and, where
  it has one, the item written to `*out`.
-/

namespace MinHeapC

/-- The record `HeapItem`: value and label. -/
structure HeapItem where
  value : Int
  label : List Int

/-- The record `MinHeap`: item array, size and capacity. -/
structure MinHeap where
  items : Nat → HeapItem
  size : Nat
  capacity : Nat

/-- `get_parent`: `(index - 1) / 2`. -/
def get_parent (index : Nat) : Nat := (index - 1) / 2

/-- `get_left_child`: `2 * index + 1`. -/
def get_left_child (index : Nat) : Nat := 2 * index + 1

/-- `get_right_child`: `2 * index + 2`. -/
def get_right_child (index : Nat) : Nat := 2 * index + 2

/-- `swap_items` on the elements at positions `a` and `b` of the array. -/
def swap_items (items : Nat → HeapItem) (a b : Nat) : Nat → HeapItem :=
  Function.update (Function.update items a (items b)) b (items a)

/-- `min_heap_create`: size 0 over an uninitialised array. -/
def min_heap_create (capacity : Nat) (memory : Nat → HeapItem) : MinHeap :=
  { items := memory, size := 0, capacity := capacity }

/-- `heapify_up`: the array after the loop started at `index`. -/
def heapify_up (items : Nat → HeapItem) (index : Nat) : Nat → HeapItem :=
  if _h : index > 0 then
    if (items (get_parent index)).value > (items index).value then
      heapify_up (swap_items items (get_parent index) index) (get_parent index)
    else items
  else items
termination_by index
decreasing_by
  unfold get_parent
  omega

/-- The index `min_index` chosen by one round of `heapify_down`. -/
def min_child (items : Nat → HeapItem) (size index : Nat) : Nat :=
  let min_index :=
    if get_left_child index < size ∧
        (items (get_left_child index)).value < (items index).value then
      get_left_child index
    else index
  if get_right_child index < size ∧
      (items (get_right_child index)).value < (items min_index).value then
    get_right_child index
  else min_index

/-- `heapify_down`: the array after the loop started at `index`. -/
def heapify_down (items : Nat → HeapItem) (size index : Nat) : Nat → HeapItem :=
  if _h : min_child items size index ≠ index then
    heapify_down (swap_items items index (min_child items size index)) size
      (min_child items size index)
  else items
termination_by size - index
decreasing_by
  simp only [min_child, get_left_child, get_right_child] at *
  split_ifs at * <;> omega

/-- `min_heap_insert`: the new heap and the returned `int`; `label` is `none`
for a `NULL` pointer. -/
def min_heap_insert (heap : MinHeap) (value : Int) (label : Option (List Int)) :
    MinHeap × Int :=
  if heap.size ≥ heap.capacity then (heap, 0)
  else
    let slot := heap.items heap.size
    let item : HeapItem :=
      { value := value,
        label := match label with
          | some l => l.take 255
          | none => slot.label }
    let items := heapify_up (Function.update heap.items heap.size item) heap.size
    ({ items := items, size := heap.size + 1, capacity := heap.capacity }, 1)

/-- `min_heap_peek`: the returned `int` and the item written to `*out`. -/
def min_heap_peek (heap : MinHeap) : Int × Option HeapItem :=
  if heap.size = 0 then (0, none) else (1, some (heap.items 0))

/-- `min_heap_extract_min`: the new heap, the returned `int` and the item
written to `*out`. -/
def min_heap_extract_min (heap : MinHeap) : MinHeap × Int × Option HeapItem :=
  if heap.size = 0 then (heap, 0, none)
  else
    let out := heap.items 0
    let items := Function.update heap.items 0 (heap.items (heap.size - 1))
    let size := heap.size - 1
    let items := if size > 0 then heapify_down items size 0 else items
    ({ items := items, size := size, capacity := heap.capacity }, 1, some out)

/-- `min_heap_delete`: the new heap and the returned `int`. -/
def min_heap_delete (heap : MinHeap) (index : Int) : MinHeap × Int :=
  if index < 0 ∨ index ≥ heap.size then (heap, 0)
  else
    let i := index.toNat
    let items := Function.update heap.items i (heap.items (heap.size - 1))
    let size := heap.size - 1
    let items :=
      if i < size then
        if i > 0 ∧ (items i).value < (items (get_parent i)).value then heapify_up items i
        else heapify_down items size i
      else items
    ({ items := items, size := size, capacity := heap.capacity }, 1)

/-- The min-heap property of `items[0..size)`: every parent's value is at
most the value of each of its children. -/
def is_min_heap (items : Nat → HeapItem) (size : Nat) : Prop :=
  ∀ i, 0 < i → i < size → (items (get_parent i)).value ≤ (items i).value

/-- The heap property holds on every edge except the one above `k`, and the
parent of `k` is at most the children of `k`: the state in which
`heapify_up` works at index `k`. -/
def UpInv (items : Nat → HeapItem) (n k : Nat) : Prop :=
  (∀ i, 0 < i → i < n → i ≠ k → (items (get_parent i)).value ≤ (items i).value) ∧
    (∀ i, 0 < i → i < n → get_parent i = k → 0 < k →
      (items (get_parent k)).value ≤ (items i).value)

/-- The heap property holds on every edge except those below `k`, and the
parent of `k` is at most the children of `k`: the state in which
`heapify_down` works at index `k`. -/
def DownInv (items : Nat → HeapItem) (n k : Nat) : Prop :=
  (∀ i, 0 < i → i < n → get_parent i ≠ k →
      (items (get_parent i)).value ≤ (items i).value) ∧
    (∀ i, 0 < i → i < n → get_parent i = k → 0 < k →
      (items (get_parent k)).value ≤ (items i).value)

/-- A heap of three items with values 1, 3, 2 and capacity 4. -/
def example_heap : MinHeap :=
  { items := fun i => { value := [1, 3, 2].getD i 0, label := [] }, size := 3, capacity := 4 }

end MinHeapC

/-!
Linear-probing hash table (`hash_table.c`): shallow embedding

The embedding follows `src/c_dsa_equivalent/hash_table.c`.

* Strings are lists of character codes, as for the trie; string arguments are
  non-`NULL` pointers.
* The array `ht->table` is a map from index to entry, read and written only
  below `size`.
* `unsigned long` has 64 bits: the hash is computed modulo 2^64.
* `strncpy(dst, src, 255)` into a 256-byte field whose last byte is zero (the
  array comes from `calloc`) leaves the first 255 characters of `src`.
* The loops of `hash_table_insert`, `hash_table_get` and `hash_table_delete`
  have the same text up to what they do in their two branches; `probe` is
  that loop, returning the branch taken and the slot.
-/

namespace HashTableC

/-- The record `HashEntry`; `occupied` is 0 (empty), 1 (occupied) or 2
(deleted). -/
structure HashEntry where
  key : List Int
  value : List Int
  occupied : Nat

/-- The record `HashTable`. -/
structure HashTable where
  table : Nat → HashEntry
  size : Nat
  count : Int

/-- `hash_function`: `hash = (hash << 5) - hash + (unsigned char)key[i]` over
the characters, in 64-bit unsigned arithmetic, then `hash % size`. -/
def hash_function (key : List Int) (size : Nat) : Nat :=
  (key.foldl
    (fun hash c => (((hash * 32) % 2 ^ 64 + 2 ^ 64 - hash) % 2 ^ 64 + (c % 256).toNat) % 2 ^ 64)
    0) % size

/-- `hash_table_create`: every entry zeroed, `count = 0`. -/
def hash_table_create (initial_size : Nat) : HashTable :=
  { table := fun _ => { key := [], value := [], occupied := 0 },
    size := initial_size, count := 0 }

/-- How a probing loop ends: at an empty slot, at the slot holding the key,
or with `i` reaching `size`. -/
inductive Probe where
  | empty (current_index : Nat) : Probe
  | found (current_index : Nat) : Probe
  | exhausted : Probe

/-- The probing loop `while (i < ht->size)`, with `fuel = size - i` rounds
left: it stops at the first slot `(hash_index + i) % size` that is empty or
that is occupied with an equal key. -/
def probe (ht : HashTable) (key : List Int) (hash_index : Nat) : Nat → Nat → Probe
  | 0, _ => .exhausted
  | fuel + 1, i =>
      let current_index := (hash_index + i) % ht.size
      if (ht.table current_index).occupied = 0 then .empty current_index
      else if (ht.table current_index).occupied = 1 ∧ (ht.table current_index).key = key then
        .found current_index
      else probe ht key hash_index fuel (i + 1)

/-- The function `hash_table_insert`. -/
def hash_table_insert (ht : HashTable) (key value : List Int) : HashTable :=
  match probe ht key (hash_function key ht.size) ht.size 0 with
  | .empty current_index =>
      { table := Function.update ht.table current_index
          { key := key.take 255, value := value.take 255, occupied := 1 },
        size := ht.size, count := ht.count + 1 }
  | .found current_index =>
      { table := Function.update ht.table current_index
          { key := (ht.table current_index).key, value := value.take 255,
            occupied := (ht.table current_index).occupied },
        size := ht.size, count := ht.count }
  | .exhausted => ht

/-- The function `hash_table_get`; `none` is the `NULL` result. -/
def hash_table_get (ht : HashTable) (key : List Int) : Option (List Int) :=
  match probe ht key (hash_function key ht.size) ht.size 0 with
  | .empty _ => none
  | .found current_index => some (ht.table current_index).value
  | .exhausted => none

/-- The function `hash_table_delete`: the new table and the returned `int`. -/
def hash_table_delete (ht : HashTable) (key : List Int) : HashTable × Int :=
  match probe ht key (hash_function key ht.size) ht.size 0 with
  | .empty _ => (ht, 0)
  | .found current_index =>
      ({ table := Function.update ht.table current_index
          { key := (ht.table current_index).key, value := (ht.table current_index).value,
            occupied := 2 },
         size := ht.size, count := ht.count - 1 }, 1)
  | .exhausted => (ht, 0)

/-- A call of the interface: insert or delete. -/
inductive HOp where
  | insert (key value : List Int) : HOp
  | delete (key : List Int) : HOp

/-- Effect of one call on the table. -/
def apply_hop (ht : HashTable) : HOp → HashTable
  | .insert k v => hash_table_insert ht k v
  | .delete k => (hash_table_delete ht k).1

/-- The table reached from `hash_table_create n` by a sequence of calls. -/
def run_table (n : Nat) (ops : List HOp) : HashTable :=
  ops.foldl apply_hop (hash_table_create n)

/-- The key `k` is currently stored: some slot is occupied with it. -/
def stored (ht : HashTable) (k : List Int) : Prop :=
  ∃ p, p < ht.size ∧ (ht.table p).occupied = 1 ∧ (ht.table p).key = k

/-- At least one slot has never been used. -/
def has_unused (ht : HashTable) : Prop :=
  ∃ p, p < ht.size ∧ (ht.table p).occupied = 0

/-- The invariant of linear probing with tombstones: every slot on the way
from the hash position of a stored key to its slot has been used, and no key
is stored twice. -/
def ProbeInv (ht : HashTable) : Prop :=
  (∀ p, p < ht.size → (ht.table p).occupied = 1 →
      ∃ j, j < ht.size ∧ (hash_function (ht.table p).key ht.size + j) % ht.size = p ∧
        ∀ i, i < j →
          (ht.table ((hash_function (ht.table p).key ht.size + i) % ht.size)).occupied ≠ 0) ∧
    ∀ p q, p < ht.size → q < ht.size → (ht.table p).occupied = 1 →
      (ht.table q).occupied = 1 → (ht.table p).key = (ht.table q).key → p = q

/-- A slot the probing loop passes over: used, and not occupied with the
key. -/
def Skipped (ht : HashTable) (key : List Int) (c : Nat) : Prop :=
  (ht.table c).occupied ≠ 0 ∧ ¬ ((ht.table c).occupied = 1 ∧ (ht.table c).key = key)

/-- A key of 256 characters `a`. -/
def long_key : List Int := List.replicate 256 97

/-- Its first 255 characters. -/
def short_key : List Int := List.replicate 255 97

/-- The table after the call `hash_table_insert(ht, long_key, "x")` on a
fresh table of size 2. -/
def truncated_table : HashTable :=
  run_table 2 [HOp.insert long_key (TrieC.str "x")]

/-- The table of `main` after its first two inserts. -/
def bookmarks_table : HashTable :=
  run_table 10 [HOp.insert (TrieC.str "github.com") (TrieC.str "GitHub"),
    HOp.insert (TrieC.str "stackoverflow.com") (TrieC.str "Stack Overflow")]

end HashTableC

namespace TrieC

/-! ## Lemmas and theorems -/

/-! ## Character indices -/

theorem checked_index_eq_none_iff (c : Int) :
    checked_index c = none ↔ ¬ is_letter c := by
  unfold checked_index char_to_index tolower is_letter
  simp only [ALPHABET_SIZE]
  split_ifs <;> simp <;> omega

theorem checked_index_isSome_iff (c : Int) :
    (checked_index c).isSome = true ↔ is_letter c := by
  rw [← not_iff_not, ← checked_index_eq_none_iff]
  cases checked_index c <;> simp

theorem checked_index_val (c : Int) (i : Fin 26) (h : checked_index c = some i) :
    (i.val : Int) = tolower c - 97 := by
  unfold checked_index char_to_index at h
  simp only [ALPHABET_SIZE] at h
  split_ifs at h with h1
  simp only [Option.some.injEq] at h
  rw [← h]
  simp only
  omega

theorem tolower_idem (c : Int) : tolower (tolower c) = tolower c := by
  unfold tolower; split_ifs <;> omega

theorem checked_index_tolower (c : Int) : checked_index (tolower c) = checked_index c := by
  unfold checked_index char_to_index
  simp only [tolower_idem]

theorem tolower_eq_of_checked_index_eq (c d : Int) (i : Fin 26)
    (hc : checked_index c = some i) (hd : checked_index d = some i) :
    tolower c = tolower d := by
  have h1 := checked_index_val c i hc
  have h2 := checked_index_val d i hd
  omega


/-! ## Keys and case folding -/

theorem key_eq_of_fold_eq (v w : List Int) (h : fold v = fold w) : key v = key w := by
  have h2 : (fold v).map checked_index = (fold w).map checked_index := by rw [h]
  simpa [fold, key, List.map_map, Function.comp_def, checked_index_tolower] using h2

theorem fold_eq_of_key_eq (v w : List Int) (hw : ∀ c ∈ w, is_letter c)
    (h : key v = key w) : fold v = fold w := by
  induction v generalizing w with
  | nil =>
    cases w with
    | nil => rfl
    | cons d w => simp [key] at h
  | cons c v ih =>
    cases w with
    | nil => simp [key] at h
    | cons d w =>
      simp only [key, List.map_cons, List.cons.injEq] at h
      have hd : is_letter d := hw d (List.mem_cons_self _ _)
      obtain ⟨i, hi⟩ := Option.isSome_iff_exists.mp ((checked_index_isSome_iff d).mpr hd)
      have hc : checked_index c = some i := by rw [h.1, hi]
      simp only [fold, List.map_cons, List.cons.injEq]
      exact ⟨tolower_eq_of_checked_index_eq c d i hc hi,
        ih w (fun x hx => hw x (List.mem_cons_of_mem _ hx)) h.2⟩

@[simp] theorem walk_null (w : List Int) : walk w .null = none := by
  cases w <;> rfl

@[simp] theorem terminal_at_null (w : List Int) : terminal_at .null w = false := by
  simp [terminal_at]

@[simp] theorem terminal_at_nil (n : TrieNode) : terminal_at n [] = n.is_end_of_word := by
  cases n <;> simp [terminal_at, walk, TrieNode.is_end_of_word]

theorem walk_cons_node (c : Int) (rest : List Int) (ch : Fin 26 → TrieNode) (e : Bool)
    (w0 : List Int) :
    walk (c :: rest) (.node ch e w0) =
      match checked_index c with
      | none => none
      | some i => walk rest (ch i) := by
  rw [walk]
  cases hci : checked_index c with
  | none => rfl
  | some i =>
    simp only
    cases h : ch i <;> simp [TrieNode.is_null]

theorem terminal_at_cons_node (c : Int) (rest : List Int) (ch : Fin 26 → TrieNode) (e : Bool)
    (w0 : List Int) :
    terminal_at (.node ch e w0) (c :: rest) =
      match checked_index c with
      | none => false
      | some i => terminal_at (ch i) rest := by
  unfold terminal_at
  rw [walk_cons_node]
  cases checked_index c <;> rfl

theorem terminal_at_node_create (w : List Int) : terminal_at trie_node_create w = false := by
  cases w with
  | nil => rfl
  | cons c rest =>
    rw [trie_node_create, terminal_at_cons_node]
    cases checked_index c <;> simp

theorem trie_search_eq (t : Trie) (w : List Int) :
    trie_search t w = (!w.isEmpty && terminal_at t.root w) := by
  unfold trie_search terminal_at
  cases w <;> simp


@[simp] theorem is_end_of_word_node (ch : Fin 26 → TrieNode) (e : Bool) (w0 : List Int) :
    (TrieNode.node ch e w0).is_end_of_word = e := rfl

@[simp] theorem is_end_of_word_null : TrieNode.null.is_end_of_word = false := rfl

@[simp] theorem is_null_node (ch : Fin 26 → TrieNode) (e : Bool) (w0 : List Int) :
    (TrieNode.node ch e w0).is_null = false := rfl

@[simp] theorem is_null_null : TrieNode.null.is_null = true := rfl

theorem eq_null_of_is_null (n : TrieNode) (h : n.is_null = true) : n = .null := by
  cases n with
  | null => rfl
  | node a b c => simp at h

/-! ## The insertion loop -/

theorem insert_loop_not_null (word rest : List Int) (cur : TrieNode)
    (h : cur.is_null = false) : (insert_loop word rest cur).1.is_null = false := by
  cases cur with
  | null => simp [TrieNode.is_null] at h
  | node ch e w0 =>
    cases rest with
    | nil => rw [insert_loop]; split_ifs <;> rfl
    | cons c rest =>
      rw [insert_loop]
      cases checked_index c <;> rfl

theorem insert_child_not_null (n : TrieNode) :
    (if n.is_null then trie_node_create else n).is_null = false := by
  cases n <;> rfl

theorem terminal_at_insert_child (n : TrieNode) (v : List Int) :
    terminal_at (if n.is_null then trie_node_create else n) v = terminal_at n v := by
  cases n with
  | null => simp [TrieNode.is_null, terminal_at_node_create]
  | node ch e w0 => simp [TrieNode.is_null]

/-- After the insertion loop the flag at `v` is set iff it was set before or
`v` selects the same node as a letters-only inserted word. -/
theorem terminal_at_insert_loop (word w : List Int) :
    ∀ (cur : TrieNode) (v : List Int), cur.is_null = false →
      terminal_at (insert_loop word w cur).1 v =
        (terminal_at cur v || (decide (key v = key w) && decide (∀ c ∈ w, is_letter c))) := by
  induction w with
  | nil =>
    intro cur v hcur
    cases cur with
    | null => simp [TrieNode.is_null] at hcur
    | node ch e w0 =>
      rw [insert_loop]
      cases v with
      | nil => cases e <;> simp [key]
      | cons d vr =>
        cases e <;> simp [key, terminal_at_cons_node]
  | cons c rest ih =>
    intro cur v hcur
    cases cur with
    | null => simp [TrieNode.is_null] at hcur
    | node ch e w0 =>
      rw [insert_loop]
      cases hc : checked_index c with
      | none =>
        have hnl : ¬ is_letter c := (checked_index_eq_none_iff c).mp hc
        simp [hnl]
      | some i =>
        have hl : is_letter c := (checked_index_isSome_iff c).mp (by simp [hc])
        simp only
        cases v with
        | nil => simp [key]
        | cons d vr =>
          rw [terminal_at_cons_node, terminal_at_cons_node]
          cases hd : checked_index d with
          | none => simp [key, hc, hd]
          | some j =>
            simp only
            by_cases hji : j = i
            · subst hji
              rw [Function.update_same, ih _ vr (insert_child_not_null _),
                terminal_at_insert_child]
              simp [key, hc, hd, hl]
            · rw [Function.update_noteq hji]
              simp [key, hc, hd, hji]

/-- The insertion loop reports an increment exactly when the word is
letters-only and its node was not terminal. -/
theorem insert_loop_snd (word w : List Int) :
    ∀ (cur : TrieNode), cur.is_null = false →
      (insert_loop word w cur).2 =
        (decide (∀ c ∈ w, is_letter c) && !terminal_at cur w) := by
  induction w with
  | nil =>
    intro cur hcur
    cases cur with
    | null => simp [TrieNode.is_null] at hcur
    | node ch e w0 => rw [insert_loop]; cases e <;> simp [TrieNode.is_end_of_word]
  | cons c rest ih =>
    intro cur hcur
    cases cur with
    | null => simp [TrieNode.is_null] at hcur
    | node ch e w0 =>
      rw [insert_loop, terminal_at_cons_node]
      cases hc : checked_index c with
      | none =>
        have hnl : ¬ is_letter c := (checked_index_eq_none_iff c).mp hc
        simp [hnl]
      | some i =>
        have hl : is_letter c := (checked_index_isSome_iff c).mp (by simp [hc])
        simp only
        rw [ih _ (insert_child_not_null _), terminal_at_insert_child]
        simp [hl]

/-! ## The deletion loop -/

/-- After the deletion loop the flag at `v` is set iff it was set before and
`v` does not select the node of the deleted word. -/
theorem terminal_at_delete_loop (w : List Int) :
    ∀ (cur : TrieNode) (v : List Int),
      terminal_at (delete_loop w cur).1 v =
        (terminal_at cur v && !decide (key v = key w)) := by
  induction w with
  | nil =>
    intro cur v
    cases cur with
    | null => simp [delete_loop]
    | node ch e w0 =>
      rw [delete_loop]
      cases v with
      | nil => cases e <;> simp [key]
      | cons d vr => cases e <;> simp [key, terminal_at_cons_node]
  | cons c rest ih =>
    intro cur v
    cases cur with
    | null => simp [delete_loop]
    | node ch e w0 =>
      rw [delete_loop]
      cases hc : checked_index c with
      | none =>
        simp only
        cases v with
        | nil => simp [key]
        | cons d vr =>
          rw [terminal_at_cons_node]
          cases hd : checked_index d with
          | none => simp
          | some j => simp [key, hc, hd]
      | some i =>
        simp only
        cases hn : (ch i).is_null with
        | true =>
          simp only [if_true]
          have hnull : ch i = .null := eq_null_of_is_null _ hn
          cases v with
          | nil => simp [key]
          | cons d vr =>
            rw [terminal_at_cons_node]
            cases hd : checked_index d with
            | none => simp
            | some j =>
              simp only
              by_cases hji : j = i
              · subst hji; simp [hnull]
              · simp [key, hc, hd, hji]
        | false =>
          simp only [Bool.false_eq_true, if_false]
          cases v with
          | nil => simp [key]
          | cons d vr =>
            rw [terminal_at_cons_node, terminal_at_cons_node]
            cases hd : checked_index d with
            | none => simp
            | some j =>
              simp only
              by_cases hji : j = i
              · subst hji
                rw [Function.update_same, ih]
                simp [key, hc, hd]
              · rw [Function.update_noteq hji]
                simp [key, hc, hd, hji]

/-- The deletion loop reports a decrement exactly when the node of the word
was terminal. -/
theorem delete_loop_snd (w : List Int) :
    ∀ (cur : TrieNode), (delete_loop w cur).2 = terminal_at cur w := by
  induction w with
  | nil =>
    intro cur
    cases cur with
    | null => simp [delete_loop]
    | node ch e w0 => rw [delete_loop]; cases e <;> simp [TrieNode.is_end_of_word]
  | cons c rest ih =>
    intro cur
    cases cur with
    | null => simp [delete_loop]
    | node ch e w0 =>
      rw [delete_loop, terminal_at_cons_node]
      cases hc : checked_index c with
      | none => rfl
      | some i =>
        simp only
        cases hn : (ch i).is_null with
        | true =>
          have hnull : ch i = .null := eq_null_of_is_null _ hn
          simp [hnull]
        | false => simp [ih]

/-- The deletion loop leaves the subtree as it is when the node of the word is
not terminal. -/
theorem delete_loop_fst_of_not_terminal (w : List Int) :
    ∀ (cur : TrieNode), terminal_at cur w = false → (delete_loop w cur).1 = cur := by
  induction w with
  | nil =>
    intro cur h
    cases cur with
    | null => simp [delete_loop]
    | node ch e w0 =>
      rw [delete_loop]
      simp only [terminal_at_nil, TrieNode.is_end_of_word] at h
      simp [h]
  | cons c rest ih =>
    intro cur h
    cases cur with
    | null => simp [delete_loop]
    | node ch e w0 =>
      rw [delete_loop]
      rw [terminal_at_cons_node] at h
      cases hc : checked_index c with
      | none => rfl
      | some i =>
        rw [hc] at h
        simp only at h ⊢
        cases hn : (ch i).is_null with
        | true => simp
        | false =>
          simp only [Bool.false_eq_true, if_false]
          rw [ih _ h, Function.update_eq_self]


/-! ## The interface functions on a trie -/

theorem letters_of_terminal_at (v : List Int) :
    ∀ (cur : TrieNode), terminal_at cur v = true → ∀ c ∈ v, is_letter c := by
  induction v with
  | nil => intro cur _ c hc; simp at hc
  | cons d vr ih =>
    intro cur h c hc
    cases cur with
    | null => simp at h
    | node ch e w0 =>
      rw [terminal_at_cons_node] at h
      cases hd : checked_index d with
      | none => rw [hd] at h; simp at h
      | some j =>
        rw [hd] at h
        rcases List.mem_cons.mp hc with rfl | hc
        · exact (checked_index_isSome_iff c).mp (by simp [hd])
        · exact ih _ h c hc

theorem trie_search_insert (t : Trie) (w v : List Int) (ht : t.root.is_null = false) :
    trie_search (trie_insert t w) v =
      (trie_search t v ||
        (!v.isEmpty && decide (key v = key w) && decide (∀ c ∈ w, is_letter c))) := by
  unfold trie_insert
  cases w with
  | nil =>
    cases v with
    | nil => simp [trie_search_eq]
    | cons d vr => simp [key]
  | cons c rest =>
    simp only [List.length_cons, Nat.add_one_ne_zero, if_false, trie_search_eq]
    rw [terminal_at_insert_loop _ _ _ _ ht]
    cases v <;> simp

theorem trie_search_delete (t : Trie) (w v : List Int) :
    trie_search (trie_delete t w) v = (trie_search t v && !decide (key v = key w)) := by
  unfold trie_delete
  cases w with
  | nil =>
    cases v with
    | nil => simp [trie_search_eq]
    | cons d vr => simp [key]
  | cons c rest =>
    simp only [List.length_cons, Nat.add_one_ne_zero, if_false, trie_search_eq]
    rw [terminal_at_delete_loop]
    cases v <;> simp

theorem trie_insert_root_not_null (t : Trie) (w : List Int) (ht : t.root.is_null = false) :
    (trie_insert t w).root.is_null = false := by
  unfold trie_insert
  split_ifs
  · exact ht
  · exact insert_loop_not_null _ _ _ ht

theorem delete_loop_not_null (w : List Int) (cur : TrieNode) (h : cur.is_null = false) :
    (delete_loop w cur).1.is_null = false := by
  cases cur with
  | null => simp at h
  | node ch e w0 =>
    cases w with
    | nil => rw [delete_loop]; split_ifs <;> rfl
    | cons c rest =>
      rw [delete_loop]
      cases checked_index c with
      | none => rfl
      | some i => simp only; split_ifs <;> rfl

theorem trie_delete_root_not_null (t : Trie) (w : List Int) (ht : t.root.is_null = false) :
    (trie_delete t w).root.is_null = false := by
  unfold trie_delete
  split_ifs
  · exact ht
  · exact delete_loop_not_null _ _ ht

/-! ## Reachable tries -/

theorem run_nil : run [] = trie_create := rfl

theorem run_append_singleton (ops : List Op) (op : Op) :
    run (ops ++ [op]) = apply_op (run ops) op := by
  simp [run, List.foldl_append]

theorem run_root_not_null (ops : List Op) : (run ops).root.is_null = false := by
  induction ops using List.reverseRecOn with
  | nil => rfl
  | append_singleton ops op ih =>
    rw [run_append_singleton]
    cases op with
    | insert w => exact trie_insert_root_not_null _ _ ih
    | delete w => exact trie_delete_root_not_null _ _ ih

theorem trie_search_create (w : List Int) : trie_search trie_create w = false := by
  rw [trie_search_eq]
  simp [trie_create, terminal_at_node_create]

theorem not_liveIn_nil (w : List Int) : ¬ LiveIn [] w := by
  rintro ⟨before, v, after, h, -⟩
  simp at h

theorem liveIn_append_insert (ops : List Op) (v w : List Int) :
    LiveIn (ops ++ [Op.insert v]) w ↔ fold v = fold w ∨ LiveIn ops w := by
  constructor
  · rintro ⟨before, v1, after, h, hv, hdel⟩
    rcases List.eq_nil_or_concat after with rfl | ⟨L, b, rfl⟩
    · have h2 : ops ++ [Op.insert v] = before ++ [Op.insert v1] := h
      obtain ⟨-, h4⟩ := List.append_inj' h2 rfl
      simp only [List.cons.injEq, Op.insert.injEq, and_true] at h4
      left; rw [h4]; exact hv
    · have h2 : ops ++ [Op.insert v] = (before ++ Op.insert v1 :: L) ++ [b] := by
        rw [h]; simp
      obtain ⟨h3, h4⟩ := List.append_inj' h2 rfl
      right
      refine ⟨before, v1, L, h3, hv, fun u hu => hdel u ?_⟩
      simp [hu]
  · rintro (h | ⟨before, v1, after, h, hv, hdel⟩)
    · exact ⟨ops, v, [], rfl, h, fun u hu => by simp at hu⟩
    · refine ⟨before, v1, after ++ [Op.insert v], by rw [h]; simp, hv, fun u hu => ?_⟩
      simp only [List.mem_append, List.mem_singleton, reduceCtorEq, or_false] at hu
      exact hdel u hu

theorem liveIn_append_delete (ops : List Op) (v w : List Int) :
    LiveIn (ops ++ [Op.delete v]) w ↔ fold v ≠ fold w ∧ LiveIn ops w := by
  constructor
  · rintro ⟨before, v1, after, h, hv, hdel⟩
    rcases List.eq_nil_or_concat after with rfl | ⟨L, b, rfl⟩
    · have h2 : ops ++ [Op.delete v] = before ++ [Op.insert v1] := h
      obtain ⟨-, h4⟩ := List.append_inj' h2 rfl
      simp at h4
    · have h2 : ops ++ [Op.delete v] = (before ++ Op.insert v1 :: L) ++ [b] := by
        rw [h]; simp
      obtain ⟨h3, h4⟩ := List.append_inj' h2 rfl
      simp only [List.cons.injEq, and_true] at h4
      subst h4
      refine ⟨hdel v (by simp), before, v1, L, h3, hv, fun u hu => hdel u ?_⟩
      simp [hu]
  · rintro ⟨hne, before, v1, after, h, hv, hdel⟩
    refine ⟨before, v1, after ++ [Op.delete v], by rw [h]; simp, hv, fun u hu => ?_⟩
    simp only [List.mem_append, List.mem_singleton, Op.delete.injEq] at hu
    rcases hu with hu | rfl
    · exact hdel u hu
    · exact hne

/-- Membership refinement for letter-only arguments: the search result is the
history-defined liveness. -/
theorem trie_search_run_iff (ops : List Op) (hops : ∀ op ∈ ops, ∀ c ∈ op.arg, is_letter c)
    (w : List Int) (hne : w ≠ []) (hw : ∀ c ∈ w, is_letter c) :
    trie_search (run ops) w = true ↔ LiveIn ops w := by
  induction ops using List.reverseRecOn with
  | nil => simp [run_nil, trie_search_create, not_liveIn_nil]
  | append_singleton ops op ih =>
    have ih2 := ih (fun o ho => hops o (by simp [ho]))
    have hop : ∀ c ∈ op.arg, is_letter c := hops op (by simp)
    have hwne : w.isEmpty = false := by cases w <;> simp at hne ⊢
    rw [run_append_singleton]
    cases op with
    | insert v =>
      have hkey : key w = key v ↔ fold v = fold w :=
        ⟨fun h => (fold_eq_of_key_eq w v hop h).symm, fun h => (key_eq_of_fold_eq v w h).symm⟩
      simp only [apply_op, trie_search_insert _ _ _ (run_root_not_null ops),
        liveIn_append_insert, Bool.or_eq_true, Bool.and_eq_true, decide_eq_true_eq, ih2, hwne,
        Bool.not_false, true_and, hkey]
      constructor
      · rintro (h | ⟨h, -⟩)
        · exact Or.inr h
        · exact Or.inl h
      · rintro (h | h)
        · exact Or.inr ⟨h, hop⟩
        · exact Or.inl h
    | delete v =>
      have hkey : key w = key v ↔ fold v = fold w :=
        ⟨fun h => (fold_eq_of_key_eq w v hop h).symm, fun h => (key_eq_of_fold_eq v w h).symm⟩
      simp only [apply_op, trie_search_delete, liveIn_append_delete, Bool.and_eq_true,
        Bool.not_eq_true', decide_eq_false_iff_not, ih2, hkey]
      exact and_comm

/-- C1: for every sequence of insert and delete calls on a fresh trie whose
arguments are valid words (non-empty, ASCII letters, at most 255 characters)
and every valid word `w`, `trie_search` finds `w` if and only if some insert
of a word case-fold-equal to `w` occurs in the sequence with no later delete
of a word case-fold-equal to `w`. -/
theorem exact_match_membership (ops : List Op) (hops : ∀ op ∈ ops, ValidWord op.arg)
    (w : List Int) (hw : ValidWord w) :
    trie_search (run ops) w = true ↔ LiveIn ops w :=
  trie_search_run_iff ops (fun op hop => (hops op hop).2.1) w hw.1 hw.2.1

/-- C1 at a concrete history: after inserting "car" and "card" and deleting
"Car", the word "card" is found exactly when it is live. -/
theorem exact_match_membership_witness :
    (∀ op ∈ [Op.insert (str "car"), Op.insert (str "card"), Op.delete (str "Car")],
        ValidWord op.arg) ∧
      ValidWord (str "card") ∧
      (trie_search (run [Op.insert (str "car"), Op.insert (str "card"), Op.delete (str "Car")])
          (str "card") = true ↔
        LiveIn [Op.insert (str "car"), Op.insert (str "card"), Op.delete (str "Car")]
          (str "card")) :=
  ⟨by decide, by decide,
    exact_match_membership _ (by decide) _ (by decide)⟩

/-- C7: for every trie `t` and every string `w`, `trie_search` of `w` is false
immediately after `trie_delete t w`. -/
theorem search_false_after_delete (t : Trie) (w : List Int) :
    trie_search (trie_delete t w) w = false := by
  rw [trie_search_delete]
  simp

/-- C8: for every trie `t` and all strings `w`, `v` that are not equal under
case folding, `trie_search` of `v` gives the same result after
`trie_delete t w` as before it. -/
theorem delete_preserves_other_words (t : Trie) (w v : List Int)
    (hne : fold w ≠ fold v) :
    trie_search (trie_delete t w) v = trie_search t v := by
  rw [trie_search_delete]
  cases hs : trie_search t v with
  | false => rfl
  | true =>
    have hk : key v ≠ key w := by
      intro hk
      rw [trie_search_eq] at hs
      simp only [Bool.and_eq_true] at hs
      have hv : ∀ c ∈ v, is_letter c := letters_of_terminal_at v _ hs.2
      exact hne (fold_eq_of_key_eq w v hv hk.symm)
    simp [hk]

/-- C8 at "car" and its extension "card" in the trie holding both. -/
theorem delete_preserves_other_words_witness :
    fold (str "car") ≠ fold (str "card") ∧
      trie_search (trie_delete (run [Op.insert (str "car"), Op.insert (str "card")]) (str "car"))
          (str "card") =
        trie_search (run [Op.insert (str "car"), Op.insert (str "card")]) (str "card") :=
  ⟨by decide, delete_preserves_other_words _ _ _ (by decide)⟩

/-- C9: for every trie `t` and every string `w` that `trie_search` does not
find, `trie_delete t w` leaves the whole trie state unchanged (nodes, flags,
stored words and `word_count`). -/
theorem delete_absent_is_noop (t : Trie) (w : List Int) (h : trie_search t w = false) :
    trie_delete t w = t := by
  unfold trie_delete
  cases w with
  | nil => rfl
  | cons c rest =>
    have ht : terminal_at t.root (c :: rest) = false := by
      rw [trie_search_eq] at h
      simpa using h
    simp only [List.length_cons, Nat.add_one_ne_zero, if_false]
    rw [delete_loop_snd, delete_loop_fst_of_not_terminal _ _ ht, ht]
    rfl

/-- C9 at the prefix "ca" of the stored word "car". -/
theorem delete_absent_is_noop_witness :
    trie_search (run [Op.insert (str "car")]) (str "ca") = false ∧
      trie_delete (run [Op.insert (str "car")]) (str "ca") = run [Op.insert (str "car")] :=
  ⟨by decide, delete_absent_is_noop _ _ (by decide)⟩

theorem take_take_append {α : Type} (n : Nat) (a b : List α) :
    (a.take n ++ b).take n = (a ++ b).take n := by
  by_cases h : a.length ≤ n
  · rw [List.take_of_length_le h]
  · have h2 : n ≤ a.length := by omega
    rw [List.take_append_of_le_length (by simp [h2]), List.take_append_of_le_length h2,
      List.take_take, Nat.min_self]

theorem live_words_from_null (pfx : List Int) : live_words_from .null pfx = [] := rfl

/-- The loop over the children in `trie_prefix_dfs`, given the collection
below each child. -/
theorem dfs_children_loop (ch : Fin 26 → TrieNode) (pfx : List Int)
    (ih : ∀ (i : Fin 26) (p : List Int) (results : List (List Int)), results.length ≤ 100 →
      trie_prefix_dfs (ch i) p results = (results ++ live_words_from (ch i) p).take 100)
    (l : List (Fin 26)) :
    ∀ (acc : List (List Int)), acc.length ≤ 100 →
      l.foldl
          (fun acc i =>
            if (ch i).is_null then acc
            else trie_prefix_dfs (ch i) (pfx ++ [97 + (i.val : Int)]) acc) acc =
        (acc ++ l.flatMap
          (fun i => live_words_from (ch i) (pfx ++ [97 + (i.val : Int)]))).take 100 := by
  induction l with
  | nil =>
    intro acc hacc
    simp [List.take_of_length_le hacc]
  | cons i l ihl =>
    intro acc hacc
    have hstep : (if (ch i).is_null then acc
        else trie_prefix_dfs (ch i) (pfx ++ [97 + (i.val : Int)]) acc) =
        (acc ++ live_words_from (ch i) (pfx ++ [97 + (i.val : Int)])).take 100 := by
      cases hn : (ch i).is_null with
      | true =>
        rw [eq_null_of_is_null _ hn]
        simp [live_words_from_null, List.take_of_length_le hacc]
      | false => simpa using ih i _ acc hacc
    rw [List.foldl_cons, hstep, ihl _ (by simp [List.length_take]), take_take_append,
      List.flatMap_cons, List.append_assoc]

/-- The collection is the complete enumeration appended to the results so
far, cut at 100 entries. -/
theorem trie_prefix_dfs_eq (n : TrieNode) :
    ∀ (pfx : List Int) (results : List (List Int)), results.length ≤ 100 →
      trie_prefix_dfs n pfx results = (results ++ live_words_from n pfx).take 100 := by
  induction n with
  | null =>
    intro pfx results h
    simp [trie_prefix_dfs, live_words_from, List.take_of_length_le h]
  | node ch e w0 ih =>
    intro pfx results h
    rw [trie_prefix_dfs, live_words_from]
    by_cases hfull : results.length ≥ 100
    · rw [if_pos hfull, List.take_append_of_le_length hfull, List.take_of_length_le h]
    · rw [if_neg hfull, dfs_children_loop ch pfx ih]
      · cases e <;> simp
      · cases e <;> simp <;> omega

theorem trie_search_prefix_eq (t : Trie) (p : List Int) :
    trie_search_prefix t p =
      if p = [] then []
      else match walk p t.root with
        | none => []
        | some cur => (live_words_from cur p).take 100 := by
  unfold trie_search_prefix
  cases p with
  | nil => simp
  | cons c rest =>
    simp only [List.length_cons, Nat.add_one_ne_zero, if_false, reduceCtorEq]
    cases walk (c :: rest) t.root with
    | none => rfl
    | some cur => simp [trie_prefix_dfs_eq cur _ [] (by simp)]


/-! ## The complete enumeration -/

theorem checked_index_letter (i : Fin 26) : checked_index (97 + (i.val : Int)) = some i := by
  have hi := i.isLt
  cases h : checked_index (97 + (i.val : Int)) with
  | none =>
    have := (checked_index_eq_none_iff _).mp h
    unfold is_letter at this
    omega
  | some j =>
    have hv := checked_index_val _ j h
    unfold tolower at hv
    rw [if_neg (by omega)] at hv
    congr 1
    apply Fin.ext
    omega

theorem exists_index_of_is_lower (c : Int) (h : is_lower c) :
    ∃ i : Fin 26, c = 97 + (i.val : Int) := by
  unfold is_lower at h
  refine ⟨⟨(c - 97).toNat, by omega⟩, ?_⟩
  simp only
  omega

theorem is_lower_letter (i : Fin 26) : is_lower (97 + (i.val : Int)) := by
  have hi := i.isLt
  unfold is_lower
  omega

theorem tolower_of_is_lower (c : Int) (h : is_lower c) : tolower c = c := by
  unfold is_lower at h
  unfold tolower
  rw [if_neg (by omega)]

theorem is_lower_tolower (c : Int) (h : is_letter c) : is_lower (tolower c) := by
  unfold is_letter at h
  unfold is_lower tolower
  split_ifs <;> omega

theorem fold_of_is_lower (x : List Int) (h : ∀ c ∈ x, is_lower c) : fold x = x := by
  induction x with
  | nil => rfl
  | cons c x ih =>
    simp only [fold, List.map_cons, List.cons.injEq]
    exact ⟨tolower_of_is_lower c (h c (List.mem_cons_self _ _)),
      ih (fun d hd => h d (List.mem_cons_of_mem _ hd))⟩

theorem fold_append (a b : List Int) : fold (a ++ b) = fold a ++ fold b := by
  simp [fold]

/-- Membership in the complete enumeration: the prefix followed by a
lower-case path to a node whose flag is set. -/
theorem mem_live_words_from (n : TrieNode) :
    ∀ (pfx s : List Int),
      s ∈ live_words_from n pfx ↔
        ∃ x, s = pfx ++ x ∧ (∀ c ∈ x, is_lower c) ∧ terminal_at n x = true := by
  induction n with
  | null =>
    intro pfx s
    simp [live_words_from]
  | node ch e w0 ih =>
    intro pfx s
    rw [live_words_from, List.mem_append, List.mem_flatMap]
    constructor
    · rintro (h | ⟨i, -, hi⟩)
      · cases e with
        | false => simp at h
        | true =>
          simp only [if_true, List.mem_singleton] at h
          exact ⟨[], by simp [h], by simp, by simp⟩
      · obtain ⟨x, hs, hx, ht⟩ := (ih i _ s).mp hi
        refine ⟨(97 + (i.val : Int)) :: x, by simp [hs], ?_, ?_⟩
        · intro c hc
          rcases List.mem_cons.mp hc with rfl | hc
          · exact is_lower_letter i
          · exact hx c hc
        · rw [terminal_at_cons_node, checked_index_letter]
          exact ht
    · rintro ⟨x, hs, hx, ht⟩
      cases x with
      | nil =>
        left
        simp only [terminal_at_nil, is_end_of_word_node] at ht
        simp [ht, hs]
      | cons c x =>
        right
        obtain ⟨i, hi⟩ := exists_index_of_is_lower c (hx c (List.mem_cons_self _ _))
        subst hi
        rw [terminal_at_cons_node, checked_index_letter] at ht
        refine ⟨i, List.mem_finRange i, (ih i _ s).mpr ⟨x, by simp [hs], ?_, ht⟩⟩
        exact fun d hd => hx d (List.mem_cons_of_mem _ hd)

theorem lex_fold_append_left (pfx a b : List Int)
    (h : List.Lex (· < ·) (fold a) (fold b)) :
    List.Lex (· < ·) (fold (pfx ++ a)) (fold (pfx ++ b)) := by
  rw [fold_append, fold_append]
  exact List.Lex.append_left _ h _

/-- The complete enumeration is strictly ascending in the lexicographic
order of the case-folded strings. -/
theorem live_words_from_sorted (n : TrieNode) :
    ∀ (pfx : List Int),
      List.Pairwise (fun a b => List.Lex (· < ·) (fold a) (fold b))
        (live_words_from n pfx) := by
  induction n with
  | null => intro pfx; simp [live_words_from]
  | node ch e w0 ih =>
    intro pfx
    rw [live_words_from, List.pairwise_append]
    refine ⟨by cases e <;> simp, ?_, ?_⟩
    · rw [List.pairwise_flatMap]
      refine ⟨fun i _ => ih i _, ?_⟩
      refine (List.pairwise_lt_finRange 26).imp ?_
      intro i j hij x hx y hy
      obtain ⟨x1, rfl, -, -⟩ := (mem_live_words_from _ _ _).mp hx
      obtain ⟨y1, rfl, -, -⟩ := (mem_live_words_from _ _ _).mp hy
      rw [List.append_assoc, List.append_assoc]
      apply lex_fold_append_left
      simp only [List.singleton_append, fold, List.map_cons]
      apply List.Lex.rel
      rw [tolower_of_is_lower _ (is_lower_letter i), tolower_of_is_lower _ (is_lower_letter j)]
      have : i.val < j.val := hij
      omega
    · intro x hx y hy
      have hxp : x = pfx := by
        cases e with
        | false => simp at hx
        | true => simpa using hx
      obtain ⟨j, -, hj⟩ := List.mem_flatMap.mp hy
      obtain ⟨y1, rfl, -, -⟩ := (mem_live_words_from _ _ _).mp hj
      subst hxp
      rw [List.append_assoc]
      have h0 : List.Lex (· < ·) (fold ([] : List Int))
          (fold ([97 + (j.val : Int)] ++ y1)) := by
        simp only [List.singleton_append, fold, List.map_cons, List.map_nil]
        exact List.Lex.nil
      simpa using lex_fold_append_left x [] _ h0

theorem lex_lt_irrefl (a : List Int) : ¬ List.Lex (· < ·) a a := by
  intro h
  exact asymm h h

theorem walk_nil_of_not_null (n : TrieNode) (h : n.is_null = false) : walk [] n = some n := by
  cases n with
  | null => simp at h
  | node ch e w0 => rfl

theorem walk_append (a b : List Int) :
    ∀ (n : TrieNode), walk (a ++ b) n = (walk a n).bind (walk b) := by
  induction a with
  | nil =>
    intro n
    cases n with
    | null => simp
    | node ch e w0 => simp [walk]
  | cons c a ih =>
    intro n
    cases n with
    | null => simp
    | node ch e w0 =>
      rw [List.cons_append, walk_cons_node, walk_cons_node]
      cases checked_index c with
      | none => rfl
      | some i => exact ih _

theorem terminal_at_append (a b : List Int) (n : TrieNode) :
    terminal_at n (a ++ b) =
      match walk a n with
      | none => false
      | some m => terminal_at m b := by
  unfold terminal_at
  rw [walk_append]
  cases walk a n <;> rfl

theorem walk_congr_key (a b : List Int) (h : key a = key b) :
    ∀ (n : TrieNode), walk a n = walk b n := by
  induction a generalizing b with
  | nil =>
    cases b with
    | nil => intro n; rfl
    | cons d b => simp [key] at h
  | cons c a ih =>
    cases b with
    | nil => simp [key] at h
    | cons d b =>
      simp only [key, List.map_cons, List.cons.injEq] at h
      intro n
      cases n with
      | null => simp
      | node ch e w0 =>
        rw [walk_cons_node, walk_cons_node, h.1]
        cases checked_index d with
        | none => rfl
        | some i => exact ih b h.2 _

theorem terminal_at_congr_key (a b : List Int) (h : key a = key b) (n : TrieNode) :
    terminal_at n a = terminal_at n b := by
  unfold terminal_at
  rw [walk_congr_key a b h]

theorem key_fold (a : List Int) : key (fold a) = key a :=
  key_eq_of_fold_eq _ _ (by simp [fold, tolower_idem])

theorem letters_of_walk (a : List Int) :
    ∀ (n m : TrieNode), walk a n = some m → ∀ c ∈ a, is_letter c := by
  induction a with
  | nil => intro n m _ c hc; simp at hc
  | cons d a ih =>
    intro n m h c hc
    cases n with
    | null => simp at h
    | node ch e w0 =>
      rw [walk_cons_node] at h
      cases hd : checked_index d with
      | none => rw [hd] at h; simp at h
      | some j =>
        rw [hd] at h
        rcases List.mem_cons.mp hc with rfl | hc
        · exact (checked_index_isSome_iff c).mp (by simp [hd])
        · exact ih _ _ h c hc

theorem is_lower_fold (a : List Int) (h : ∀ c ∈ a, is_letter c) :
    ∀ c ∈ fold a, is_lower c := by
  intro c hc
  simp only [fold, List.mem_map] at hc
  obtain ⟨d, hd, rfl⟩ := hc
  exact is_lower_tolower d (h d hd)

/-- Two strictly ascending lists with the same members are equal. -/
theorem eq_of_pairwise_lex_of_mem_iff (l1 l2 : List (List Int))
    (h1 : List.Pairwise (List.Lex (· < ·)) l1) (h2 : List.Pairwise (List.Lex (· < ·)) l2)
    (hm : ∀ s, s ∈ l1 ↔ s ∈ l2) : l1 = l2 := by
  have hne : ∀ a b : List Int, List.Lex (· < ·) a b → a ≠ b := by
    intro a b hab heq
    subst heq
    exact lex_lt_irrefl a hab
  have n1 : l1.Nodup := by
    refine h1.imp ?_
    intro a b hab
    exact hne a b hab
  have n2 : l2.Nodup := by
    refine h2.imp ?_
    intro a b hab
    exact hne a b hab
  exact List.eq_of_perm_of_sorted ((List.perm_ext_iff_of_nodup n1 n2).mpr hm) h1 h2


/-! ## Live words with a given prefix -/

theorem mem_live_words (t : Trie) (s : List Int) :
    s ∈ live_words t ↔ (∀ c ∈ s, is_lower c) ∧ terminal_at t.root s = true := by
  unfold live_words
  rw [mem_live_words_from]
  constructor
  · rintro ⟨x, hs, hx, ht⟩
    simp only [List.nil_append] at hs
    subst hs
    exact ⟨hx, ht⟩
  · rintro ⟨hx, ht⟩
    exact ⟨s, by simp, hx, ht⟩

theorem live_words_sorted (t : Trie) : List.Pairwise (List.Lex (· < ·)) (live_words t) := by
  refine (live_words_from_sorted t.root []).imp_of_mem ?_
  intro a b ha hb hab
  rw [fold_of_is_lower a ((mem_live_words t a).mp ha).1,
    fold_of_is_lower b ((mem_live_words t b).mp hb).1] at hab
  exact hab

theorem mem_live_matches (t : Trie) (p s : List Int) :
    s ∈ live_matches t p ↔
      (∀ c ∈ s, is_lower c) ∧ terminal_at t.root s = true ∧ fold p <+: s := by
  unfold live_matches
  rw [List.mem_filter, mem_live_words, List.isPrefixOf_iff_prefix, and_assoc]

theorem mem_map_fold_live_words_from (cur : TrieNode) (p s : List Int) :
    s ∈ (live_words_from cur p).map fold ↔
      ∃ x, s = fold p ++ x ∧ (∀ c ∈ x, is_lower c) ∧ terminal_at cur x = true := by
  rw [List.mem_map]
  constructor
  · rintro ⟨y, hy, rfl⟩
    obtain ⟨x, rfl, hx, ht⟩ := (mem_live_words_from _ _ _).mp hy
    exact ⟨x, by rw [fold_append, fold_of_is_lower x hx], hx, ht⟩
  · rintro ⟨x, rfl, hx, ht⟩
    exact ⟨p ++ x, (mem_live_words_from _ _ _).mpr ⟨x, rfl, hx, ht⟩,
      by rw [fold_append, fold_of_is_lower x hx]⟩

theorem key_append (a b : List Int) : key (a ++ b) = key a ++ key b := by
  simp [key]

theorem key_fold_append (p x : List Int) : key (fold p ++ x) = key (p ++ x) := by
  rw [key_append, key_append, key_fold]

/-- The live words of the trie that start with the folded prefix are the
folded complete enumeration below the node the prefix leads to. -/
theorem live_matches_eq (t : Trie) (p : List Int) :
    live_matches t p =
      match walk p t.root with
      | none => []
      | some cur => (live_words_from cur p).map fold := by
  cases hw : walk p t.root with
  | none =>
    simp only
    apply List.eq_nil_iff_forall_not_mem.mpr
    intro s hs
    obtain ⟨-, ht, x, rfl⟩ := (mem_live_matches t p s).mp hs
    rw [terminal_at_congr_key _ _ (key_fold_append p x), terminal_at_append, hw] at ht
    simp at ht
  | some cur =>
    simp only
    apply eq_of_pairwise_lex_of_mem_iff
    · exact (live_words_sorted t).sublist (List.filter_sublist _)
    · rw [List.pairwise_map]
      exact live_words_from_sorted cur p
    · intro s
      rw [mem_live_matches, mem_map_fold_live_words_from]
      have hp : ∀ c ∈ p, is_letter c := letters_of_walk p _ _ hw
      constructor
      · rintro ⟨hl, ht, x, rfl⟩
        rw [terminal_at_congr_key _ _ (key_fold_append p x), terminal_at_append, hw] at ht
        exact ⟨x, rfl, fun c hc => hl c (List.mem_append_right _ hc), ht⟩
      · rintro ⟨x, rfl, hx, ht⟩
        refine ⟨?_, ?_, List.prefix_append _ _⟩
        · intro c hc
          rcases List.mem_append.mp hc with hc | hc
          · exact is_lower_fold p hp c hc
          · exact hx c hc
        · rw [terminal_at_congr_key _ _ (key_fold_append p x), terminal_at_append, hw]
          exact ht

theorem trie_search_prefix_map_fold (t : Trie) (p : List Int) (hp : p ≠ []) :
    ( trie_search_prefix t p).map fold = (live_matches t p).take 100 := by
  rw [trie_search_prefix_eq, if_neg hp, live_matches_eq]
  cases walk p t.root with
  | none => rfl
  | some cur => simp [List.map_take]

/-! ## The bounds of the 256-byte buffers -/

@[simp] theorem within_depth_null (k : Nat) : within_depth k .null = true := by
  cases k <;> rfl

@[simp] theorem within_depth_zero_node (ch : Fin 26 → TrieNode) (e : Bool) (w0 : List Int) :
    within_depth 0 (.node ch e w0) = false := rfl

theorem within_depth_succ_node (k : Nat) (ch : Fin 26 → TrieNode) (e : Bool) (w0 : List Int) :
    within_depth (k + 1) (.node ch e w0) = true ↔ ∀ i, within_depth k (ch i) = true := by
  simp [within_depth, List.all_eq_true]

/-- In a subtree with at most `k` levels a walk that reaches a node has
consumed fewer than `k` characters. -/
theorem length_lt_of_walk (x : List Int) :
    ∀ (k : Nat) (n m : TrieNode), within_depth k n = true → walk x n = some m →
      x.length < k := by
  induction x with
  | nil =>
    intro k n m hd hw
    cases n with
    | null => simp at hw
    | node ch e w0 =>
      cases k with
      | zero => simp at hd
      | succ k => simp
  | cons c rest ih =>
    intro k n m hd hw
    cases n with
    | null => simp at hw
    | node ch e w0 =>
      cases k with
      | zero => simp at hd
      | succ k =>
        rw [walk_cons_node] at hw
        cases hci : checked_index c with
        | none => rw [hci] at hw; simp at hw
        | some i =>
          rw [hci] at hw
          have := ih k (ch i) m ((within_depth_succ_node k ch e w0).mp hd i) hw
          simp only [List.length_cons]
          omega

theorem exists_walk_of_terminal_at (cur : TrieNode) (x : List Int)
    (h : terminal_at cur x = true) : ∃ m, walk x cur = some m := by
  unfold terminal_at at h
  cases hw : walk x cur with
  | none => rw [hw] at h; simp at h
  | some m => exact ⟨m, rfl⟩

/-- In a trie whose nodes lie at depth at most 255 every string that
`trie_search_prefix` returns has at most 255 characters: with its NUL it fits
the path buffer and a row of the result array. -/
theorem length_le_of_mem_trie_search_prefix_of (t : Trie) (p s : List Int)
    (ht : within_depth 256 t.root = true) (hs : s ∈ trie_search_prefix t p) :
    s.length ≤ 255 := by
  rw [trie_search_prefix_eq] at hs
  split_ifs at hs with hp
  · simp at hs
  · cases hw : walk p t.root with
    | none => rw [hw] at hs; simp at hs
    | some cur =>
      rw [hw] at hs
      obtain ⟨x, hsx, -, hterm⟩ := (mem_live_words_from _ _ _).mp (List.mem_of_mem_take hs)
      obtain ⟨m, hm⟩ := exists_walk_of_terminal_at cur x hterm
      have hwalk : walk (p ++ x) t.root = some m := by
        rw [walk_append, hw]
        exact hm
      have := length_lt_of_walk (p ++ x) 256 t.root m ht hwalk
      rw [hsx]
      omega

/-- C6, amended to non-empty prefixes: for every trie the count returned by
`trie_search_prefix` for the empty prefix is 0, whatever the trie holds; for
every trie whose nodes lie at depth at most 255 (so that the traversal stays
within the 256-byte path buffer) and every non-empty prefix `p`, the count is
the minimum of 100 and the number of live words with case-folded prefix `p`,
it never exceeds 100, every result has at most 255 characters (so every write
into the 100 rows of 256 bytes is in bounds), and the results, case-folded,
are the first 100 entries of the complete ascending enumeration of these live
words: the strictly ascending list `live_matches t p` whose members are the
lower-case words found by `trie_search` that start with the folded prefix. -/
theorem prefix_search_count_capped (t : Trie) :
    ( trie_search_prefix t []).length = 0 ∧
      ∀ p : List Int, p ≠ [] → within_depth 256 t.root = true →
        ( trie_search_prefix t p).length = min 100 (live_matches t p).length ∧
        ( trie_search_prefix t p).length ≤ 100 ∧
        (∀ s ∈ trie_search_prefix t p, s.length ≤ 255) ∧
        ( trie_search_prefix t p).map fold = (live_matches t p).take 100 ∧
        List.Pairwise (List.Lex (· < ·)) (live_matches t p) ∧
        ∀ s, s ∈ live_matches t p ↔
          (∀ c ∈ s, is_lower c) ∧ trie_search t s = true ∧ fold p <+: s := by
  refine ⟨rfl, fun p hp ht => ?_⟩
  have h := trie_search_prefix_map_fold t p hp
  have hlen : ( trie_search_prefix t p).length = min 100 (live_matches t p).length := by
    have := congrArg List.length h
    simpa [List.length_take] using this
  refine ⟨hlen, by rw [hlen]; exact Nat.min_le_left _ _,
    fun s hs => length_le_of_mem_trie_search_prefix_of t p s ht hs, h,
    (live_words_sorted t).sublist (List.filter_sublist _), fun s => ?_⟩
  rw [mem_live_matches, trie_search_eq]
  constructor
  · rintro ⟨hl, ht, hpre⟩
    have hs : s ≠ [] := by
      rintro rfl
      have := List.prefix_nil.mp hpre
      cases p with
      | nil => exact hp rfl
      | cons c rest => simp [fold] at this
    cases s with
    | nil => exact absurd rfl hs
    | cons c rest => exact ⟨hl, by simpa using ht, hpre⟩
  · rintro ⟨hl, ht, hpre⟩
    simp only [Bool.and_eq_true] at ht
    exact ⟨hl, ht.2, hpre⟩

set_option maxRecDepth 100000 in
/-- C6 at the prefix "x" in the trie holding the 104 words `x??` with second
letter `a`-`d`. -/
theorem prefix_search_count_capped_witness :
    str "x" ≠ [] ∧ within_depth 256 (run cap_example_ops).root = true ∧
      ( trie_search_prefix (run cap_example_ops) []).length = 0 ∧
      ( trie_search_prefix (run cap_example_ops) (str "x")).length =
        min 100 (live_matches (run cap_example_ops) (str "x")).length ∧
      ( trie_search_prefix (run cap_example_ops) (str "x")).length ≤ 100 :=
  ⟨by decide, by decide, (prefix_search_count_capped (run cap_example_ops)).1,
    ((prefix_search_count_capped (run cap_example_ops)).2 (str "x") (by decide) (by decide)).1,
    ((prefix_search_count_capped (run cap_example_ops)).2 (str "x") (by decide)
      (by decide)).2.1⟩

set_option maxRecDepth 100000 in
/-- The cap at work: of 104 live words with prefix "x" the call returns 100,
the last one being "xdv". -/
theorem prefix_search_drops_beyond_cap :
    live_count cap_example_ops (str "x") = 104 ∧
      ( trie_search_prefix (run cap_example_ops) (str "x")).length = 100 ∧
      ( trie_search_prefix (run cap_example_ops) (str "x")).getLast? = some (str "xdv") := by
  decide

/-- C6 as stated fails for the empty prefix: with the single live word "a"
the empty prefix matches one live word, yet `trie_search_prefix` returns
count 0. -/
theorem prefix_search_count_empty_prefix_fails :
    ( trie_search_prefix (run [Op.insert (str "a")]) []).length = 0 ∧
      live_matches (run [Op.insert (str "a")]) [] = [str "a"] ∧
      ( trie_search_prefix (run [Op.insert (str "a")]) []).length ≠
        min 100 (live_matches (run [Op.insert (str "a")]) []).length := by
  decide


/-! ## The set of live words of a reachable trie -/

theorem trie_search_of_ne_nil (t : Trie) (s : List Int) (hs : s ≠ []) :
    trie_search t s = terminal_at t.root s := by
  rw [trie_search_eq]
  cases s with
  | nil => exact absurd rfl hs
  | cons c rest => simp

theorem not_null_of_terminal_at (n : TrieNode) (w : List Int) (h : terminal_at n w = true) :
    n.is_null = false := by
  cases n with
  | null => simp at h
  | node ch e w0 => rfl

/-- The insertion loop changes nothing when the node of the word is already
terminal. -/
theorem insert_loop_of_terminal (word w : List Int) :
    ∀ (cur : TrieNode), terminal_at cur w = true → insert_loop word w cur = (cur, false) := by
  induction w with
  | nil =>
    intro cur h
    cases cur with
    | null => simp at h
    | node ch e w0 =>
      simp only [terminal_at_nil, is_end_of_word_node] at h
      rw [insert_loop]
      simp [h]
  | cons c rest ih =>
    intro cur h
    cases cur with
    | null => simp at h
    | node ch e w0 =>
      rw [terminal_at_cons_node] at h
      rw [insert_loop]
      cases hc : checked_index c with
      | none => rfl
      | some i =>
        rw [hc] at h
        simp only at h ⊢
        rw [not_null_of_terminal_at _ _ h]
        simp only [Bool.false_eq_true, if_false]
        rw [ih _ h, Function.update_eq_self]

theorem trie_search_congr_fold (t : Trie) (w w' : List Int) (h : fold w = fold w') :
    trie_search t w = trie_search t w' := by
  have he : w.isEmpty = w'.isEmpty := by
    cases w <;> cases w' <;> simp [fold] at h ⊢
  rw [trie_search_eq, trie_search_eq, he,
    terminal_at_congr_key w w' (key_eq_of_fold_eq w w' h)]

/-- C11: for every trie `t` in which the word `w` is live and every word `w'`
equal to `w` under case folding, `trie_insert t w'` leaves the whole trie
state unchanged, `word_count` and the stored word of the node included. -/
theorem duplicate_insert_is_noop (t : Trie) (w w' : List Int)
    (hlive : trie_search t w = true) (hfold : fold w' = fold w) :
    trie_insert t w' = t := by
  rw [← trie_search_congr_fold t w' w hfold, trie_search_eq] at hlive
  simp only [Bool.and_eq_true] at hlive
  unfold trie_insert
  split_ifs with h0
  · rfl
  · rw [insert_loop_of_terminal _ _ _ hlive.2]
    rfl

/-- C11 at the live word "Car" and the variant "cAR". -/
theorem duplicate_insert_is_noop_witness :
    trie_search (run [Op.insert (str "Car")]) (str "Car") = true ∧
      fold (str "cAR") = fold (str "Car") ∧
      trie_insert (run [Op.insert (str "Car")]) (str "cAR") = run [Op.insert (str "Car")] :=
  ⟨by decide, by decide,
    duplicate_insert_is_noop (run [Op.insert (str "Car")]) (str "Car") (str "cAR") (by decide)
      (by decide)⟩

/-- C12, amended to non-empty inserted words: for every trie `t` and all
letter-only words `w`, `w'` equal under case folding, `trie_search` gives the
same result for both, and when `w` is non-empty and has at most 255
characters (so that `trie_insert` copies it within the 256-byte `word`
field) `trie_search` of `w'` is true after `trie_insert t w` (the root of `t`
being allocated). -/
theorem case_insensitive_lookup (t : Trie) (w w' : List Int)
    (hw : ∀ c ∈ w, is_letter c) (hfold : fold w = fold w') :
    trie_search t w = trie_search t w' ∧
      (w ≠ [] → w.length ≤ 255 → t.root.is_null = false →
        trie_search (trie_insert t w) w' = true) := by
  refine ⟨trie_search_congr_fold t w w' hfold, fun hne _ ht => ?_⟩
  rw [← trie_search_congr_fold _ w w' hfold, trie_search_insert t w w ht, decide_eq_true hw]
  cases w with
  | nil => exact absurd rfl hne
  | cons c rest => simp

/-- C12 at "Car" and "car", in both directions. -/
theorem case_insensitive_lookup_witness :
    (∀ c ∈ str "Car", is_letter c) ∧ fold (str "Car") = fold (str "car") ∧
      str "Car" ≠ [] ∧ (str "Car").length ≤ 255 ∧ trie_create.root.is_null = false ∧
      trie_search trie_create (str "Car") = trie_search trie_create (str "car") ∧
      trie_search (trie_insert trie_create (str "Car")) (str "car") = true ∧
      trie_search (trie_insert trie_create (str "car")) (str "Car") = true :=
  ⟨by decide, by decide, by decide, by decide, by decide,
    (case_insensitive_lookup trie_create (str "Car") (str "car") (by decide) (by decide)).1,
    (case_insensitive_lookup trie_create (str "Car") (str "car") (by decide) (by decide)).2
      (by decide) (by decide) (by decide),
    by decide⟩

/-- C12 as stated fails for the empty word: it is letter-only and equal to
itself under case folding, yet after `trie_insert` of it `trie_search` of it
is false. -/
theorem case_insensitive_lookup_empty_word :
    (∀ c ∈ ([] : List Int), is_letter c) ∧ fold ([] : List Int) = fold [] ∧
      trie_search (trie_insert trie_create []) [] = false := by
  decide

/-! ## The root and the empty string -/

theorem trie_insert_root (t : Trie) (w : List Int) :
    (trie_insert t w).root = if w.length = 0 then t.root else (insert_loop w w t.root).1 := by
  unfold trie_insert
  split_ifs <;> rfl

theorem trie_delete_root (t : Trie) (w : List Int) :
    (trie_delete t w).root = if w.length = 0 then t.root else (delete_loop w t.root).1 := by
  unfold trie_delete
  split_ifs <;> rfl

/-- C17: for every trie, `trie_search_prefix` called with the empty string
returns count 0 and writes no result; this holds in particular for a trie
with live words, whose traversal from the root is not empty. -/
theorem empty_prefix_returns_nothing (t : Trie) :
    trie_search_prefix t [] = [] ∧ ( trie_search_prefix t []).length = 0 ∧
      trie_search_prefix scenario [] = [] ∧ trie_print scenario ≠ [] := by
  refine ⟨rfl, rfl, rfl, ?_⟩
  decide

/-- C19: the scenario of `main`.  After inserting cat, car, card, care,
careful, apple, app, apply into a fresh trie: `word_count` is 8, "car" and
"care" are found, "ca" is not, the prefix "car" gives 4 words car, card, care,
careful in that order and the prefix "app" gives 3 words app, apple, apply;
after deleting "car": "car" is not found, `word_count` is 7 and the prefix
"car" gives 3 words card, care, careful. -/
theorem main_scenario :
    scenario.word_count = 8 ∧
      trie_search scenario (str "car") = true ∧
      trie_search scenario (str "care") = true ∧
      trie_search scenario (str "ca") = false ∧
      ( trie_search_prefix scenario (str "car")).length = 4 ∧
      trie_search_prefix scenario (str "car") =
        [str "car", str "card", str "care", str "careful"] ∧
      ( trie_search_prefix scenario (str "app")).length = 3 ∧
      trie_search_prefix scenario (str "app") = [str "app", str "apple", str "apply"] ∧
      trie_search (trie_delete scenario (str "car")) (str "car") = false ∧
      (trie_delete scenario (str "car")).word_count = 7 ∧
      ( trie_search_prefix (trie_delete scenario (str "car")) (str "car")).length = 3 ∧
      trie_search_prefix (trie_delete scenario (str "car")) (str "car") =
        [str "card", str "care", str "careful"] := by
  decide


/-! ## Reachable tries stay within the bounds of the buffers -/

theorem within_depth_flag (k : Nat) (ch : Fin 26 → TrieNode) (e e' : Bool)
    (w0 w1 : List Int) :
    within_depth k (.node ch e w0) = within_depth k (.node ch e' w1) := by
  cases k <;> rfl

theorem within_depth_node_create (k : Nat) (hk : 0 < k) :
    within_depth k trie_node_create = true := by
  cases k with
  | zero => omega
  | succ k => rw [trie_node_create, within_depth_succ_node]; intro i; simp

/-- An insert of a word shorter than the number of levels keeps the number of
levels. -/
theorem within_depth_insert_loop (word : List Int) (rest : List Int) :
    ∀ (k : Nat) (cur : TrieNode), within_depth k cur = true → rest.length < k →
      within_depth k (insert_loop word rest cur).1 = true := by
  induction rest with
  | nil =>
    intro k cur hd _
    cases cur with
    | null => simp [insert_loop]
    | node ch e w0 =>
      rw [insert_loop]
      split_ifs
      · rw [within_depth_flag k ch true e word w0]; exact hd
      · exact hd
  | cons c rest ih =>
    intro k cur hd hlen
    cases cur with
    | null => simp [insert_loop]
    | node ch e w0 =>
      cases k with
      | zero => simp at hd
      | succ k =>
        simp only [List.length_cons] at hlen
        rw [insert_loop]
        cases hci : checked_index c with
        | none => exact hd
        | some i =>
          simp only
          rw [within_depth_succ_node] at hd ⊢
          intro j
          by_cases hj : j = i
          · subst hj
            rw [Function.update_same]
            refine ih k _ ?_ (by omega)
            cases hn : (ch j).is_null with
            | true => simp only [if_true]; exact within_depth_node_create k (by omega)
            | false => simp only [Bool.false_eq_true, if_false]; exact hd j
          · rw [Function.update_noteq hj]
            exact hd j

/-- A delete keeps the number of levels. -/
theorem within_depth_delete_loop (w : List Int) :
    ∀ (k : Nat) (cur : TrieNode), within_depth k cur = true →
      within_depth k (delete_loop w cur).1 = true := by
  induction w with
  | nil =>
    intro k cur hd
    cases cur with
    | null => simp [delete_loop]
    | node ch e w0 =>
      rw [delete_loop]
      split_ifs
      · rw [within_depth_flag k ch false e w0 w0]; exact hd
      · exact hd
  | cons c rest ih =>
    intro k cur hd
    cases cur with
    | null => simp [delete_loop]
    | node ch e w0 =>
      cases k with
      | zero => simp at hd
      | succ k =>
        rw [delete_loop]
        cases hci : checked_index c with
        | none => exact hd
        | some i =>
          simp only
          split_ifs
          · exact hd
          · rw [within_depth_succ_node] at hd ⊢
            intro j
            by_cases hj : j = i
            · subst hj
              rw [Function.update_same]
              exact ih k _ (hd j)
            · rw [Function.update_noteq hj]
              exact hd j

/-- A trie reached by calls whose inserted words have at most 255 characters
has all its nodes at depth at most 255. -/
theorem within_depth_run (ops : List Op) (hops : ∀ w, Op.insert w ∈ ops → w.length ≤ 255) :
    within_depth 256 (run ops).root = true := by
  induction ops using List.reverseRecOn with
  | nil => rfl
  | append_singleton ops op ih =>
    have ih2 := ih (fun w hw => hops w (by simp [hw]))
    rw [run_append_singleton]
    cases op with
    | insert w =>
      simp only [apply_op]
      rw [trie_insert_root]
      split_ifs
      · exact ih2
      · exact within_depth_insert_loop w w 256 _ ih2 (by have := hops w (by simp); omega)
    | delete w =>
      simp only [apply_op]
      rw [trie_delete_root]
      split_ifs
      · exact ih2
      · exact within_depth_delete_loop w 256 _ ih2

theorem words_fit_node (ch : Fin 26 → TrieNode) (e : Bool) (w0 : List Int) :
    words_fit (.node ch e w0) ↔ w0.length ≤ 255 ∧ ∀ i, words_fit (ch i) := by
  rw [words_fit]

theorem words_fit_node_create : words_fit trie_node_create := by
  rw [trie_node_create, words_fit_node]
  exact ⟨by simp, fun _ => by simp [words_fit]⟩

/-- The insertion loop keeps every stored word within 255 characters when the
inserted word, if it is letters-only from here on, has at most 255
characters. -/
theorem words_fit_insert_loop (word : List Int) (rest : List Int) :
    ∀ (cur : TrieNode), words_fit cur → ((∀ c ∈ rest, is_letter c) → word.length ≤ 255) →
      words_fit (insert_loop word rest cur).1 := by
  induction rest with
  | nil =>
    intro cur hf hb
    cases cur with
    | null => simp [insert_loop, words_fit]
    | node ch e w0 =>
      rw [insert_loop]
      rw [words_fit_node] at hf
      split_ifs
      · rw [words_fit_node]; exact ⟨hb (by simp), hf.2⟩
      · rw [words_fit_node]; exact hf
  | cons c rest ih =>
    intro cur hf hb
    cases cur with
    | null => simp [insert_loop, words_fit]
    | node ch e w0 =>
      rw [insert_loop]
      cases hci : checked_index c with
      | none => exact hf
      | some i =>
        simp only
        rw [words_fit_node] at hf ⊢
        refine ⟨hf.1, fun j => ?_⟩
        by_cases hj : j = i
        · subst hj
          rw [Function.update_same]
          refine ih _ ?_ ?_
          · cases hn : (ch j).is_null with
            | true => simp only [if_true]; exact words_fit_node_create
            | false => simp only [Bool.false_eq_true, if_false]; exact hf.2 j
          · intro hrest
            refine hb ?_
            intro x hx
            rcases List.mem_cons.mp hx with rfl | hx
            · exact (checked_index_isSome_iff x).mp (by rw [hci]; rfl)
            · exact hrest x hx
        · rw [Function.update_noteq hj]
          exact hf.2 j

/-- The deletion loop changes no stored word. -/
theorem words_fit_delete_loop (w : List Int) :
    ∀ (cur : TrieNode), words_fit cur → words_fit (delete_loop w cur).1 := by
  induction w with
  | nil =>
    intro cur hf
    cases cur with
    | null => simp [delete_loop, words_fit]
    | node ch e w0 =>
      rw [delete_loop]
      rw [words_fit_node] at hf
      split_ifs
      · rw [words_fit_node]; exact hf
      · rw [words_fit_node]; exact hf
  | cons c rest ih =>
    intro cur hf
    cases cur with
    | null => simp [delete_loop, words_fit]
    | node ch e w0 =>
      rw [delete_loop]
      cases hci : checked_index c with
      | none => exact hf
      | some i =>
        simp only
        split_ifs
        · exact hf
        · rw [words_fit_node] at hf ⊢
          refine ⟨hf.1, fun j => ?_⟩
          by_cases hj : j = i
          · subst hj
            rw [Function.update_same]
            exact ih _ (hf.2 j)
          · rw [Function.update_noteq hj]
            exact hf.2 j

/-- In a trie reached by calls that stay within bounds every stored word has
at most 255 characters: the lists of the embedding hold what the 256-byte
`word` fields hold. -/
theorem words_fit_run (ops : List Op) (hops : ∀ op ∈ ops, op.in_bounds) :
    words_fit (run ops).root := by
  induction ops using List.reverseRecOn with
  | nil => exact words_fit_node_create
  | append_singleton ops op ih =>
    have ih2 := ih (fun o ho => hops o (by simp [ho]))
    rw [run_append_singleton]
    cases op with
    | insert w =>
      simp only [apply_op]
      rw [trie_insert_root]
      split_ifs
      · exact ih2
      · exact words_fit_insert_loop w w _ ih2 (hops (Op.insert w) (by simp))
    | delete w =>
      simp only [apply_op]
      rw [trie_delete_root]
      split_ifs
      · exact ih2
      · exact words_fit_delete_loop w _ ih2

/-! ## Stored words -/

@[simp] theorem label_at_null (w : List Int) : label_at .null w = [] := by
  simp [label_at]

@[simp] theorem label_at_nil_node (ch : Fin 26 → TrieNode) (e : Bool) (w0 : List Int) :
    label_at (.node ch e w0) [] = w0 := rfl

theorem label_at_cons_node (c : Int) (rest : List Int) (ch : Fin 26 → TrieNode) (e : Bool)
    (w0 : List Int) :
    label_at (.node ch e w0) (c :: rest) =
      match checked_index c with
      | none => []
      | some i => label_at (ch i) rest := by
  unfold label_at
  rw [walk_cons_node]
  cases checked_index c <;> rfl

theorem label_at_node_create (w : List Int) : label_at trie_node_create w = [] := by
  cases w with
  | nil => rfl
  | cons c rest =>
    rw [trie_node_create, label_at_cons_node]
    cases checked_index c <;> simp

theorem label_at_insert_child (n : TrieNode) (v : List Int) :
    label_at (if n.is_null then trie_node_create else n) v = label_at n v := by
  cases n with
  | null => simp [label_at_node_create]
  | node ch e w0 => simp

/-- The insertion loop stores the argument in the node of a letters-only word
that was not terminal and leaves every other stored word as it was. -/
theorem label_at_insert_loop (word w : List Int) :
    ∀ (cur : TrieNode) (v : List Int), cur.is_null = false →
      label_at (insert_loop word w cur).1 v =
        if key v = key w ∧ (∀ c ∈ w, is_letter c) ∧ terminal_at cur w = false then word
        else label_at cur v := by
  induction w with
  | nil =>
    intro cur v hcur
    cases cur with
    | null => simp at hcur
    | node ch e w0 =>
      rw [insert_loop]
      cases v with
      | nil => cases e <;> simp [key]
      | cons d vr => cases e <;> simp [key, label_at_cons_node]
  | cons c rest ih =>
    intro cur v hcur
    cases cur with
    | null => simp at hcur
    | node ch e w0 =>
      rw [insert_loop]
      cases hc : checked_index c with
      | none =>
        have hnl : ¬ is_letter c := (checked_index_eq_none_iff c).mp hc
        simp [hnl]
      | some i =>
        have hl : is_letter c := (checked_index_isSome_iff c).mp (by simp [hc])
        simp only
        cases v with
        | nil => simp [key]
        | cons d vr =>
          rw [label_at_cons_node, label_at_cons_node, terminal_at_cons_node, hc]
          cases hd : checked_index d with
          | none => simp [key, hc, hd]
          | some j =>
            simp only
            by_cases hji : j = i
            · subst hji
              rw [Function.update_same, ih _ vr (insert_child_not_null _),
                terminal_at_insert_child, label_at_insert_child]
              simp [key, hc, hd, hl]
            · rw [Function.update_noteq hji]
              simp [key, hc, hd, hji]

/-- The deletion loop changes no stored word. -/
theorem label_at_delete_loop (w : List Int) :
    ∀ (cur : TrieNode) (v : List Int), label_at (delete_loop w cur).1 v = label_at cur v := by
  induction w with
  | nil =>
    intro cur v
    cases cur with
    | null => simp [delete_loop]
    | node ch e w0 =>
      rw [delete_loop]
      cases v with
      | nil => cases e <;> simp
      | cons d vr => cases e <;> simp [label_at_cons_node]
  | cons c rest ih =>
    intro cur v
    cases cur with
    | null => simp [delete_loop]
    | node ch e w0 =>
      rw [delete_loop]
      cases hc : checked_index c with
      | none => rfl
      | some i =>
        simp only
        cases hn : (ch i).is_null with
        | true => simp
        | false =>
          simp only [Bool.false_eq_true, if_false]
          cases v with
          | nil => simp
          | cons d vr =>
            rw [label_at_cons_node, label_at_cons_node]
            cases hd : checked_index d with
            | none => rfl
            | some j =>
              simp only
              by_cases hji : j = i
              · subst hji
                rw [Function.update_same, ih]
              · rw [Function.update_noteq hji]

theorem label_at_trie_insert (t : Trie) (w v : List Int) (ht : t.root.is_null = false) :
    label_at (trie_insert t w).root v =
      if w ≠ [] ∧ key v = key w ∧ (∀ c ∈ w, is_letter c) ∧ terminal_at t.root w = false then w
      else label_at t.root v := by
  rw [trie_insert_root]
  cases w with
  | nil => simp
  | cons c rest =>
    simp only [List.length_cons, Nat.add_one_ne_zero, if_false]
    rw [label_at_insert_loop _ _ _ _ ht]
    simp

theorem label_at_trie_delete (t : Trie) (w v : List Int) :
    label_at (trie_delete t w).root v = label_at t.root v := by
  rw [trie_delete_root]
  split_ifs
  · rfl
  · exact label_at_delete_loop _ _ _


/-- The stored word of a live word of a reachable trie is the argument of
the insert call that made its node terminal. -/
theorem label_at_run_of_live (ops : List Op)
    (hops : ∀ op ∈ ops, ∀ c ∈ op.arg, is_letter c) (w : List Int) (hne : w ≠ [])
    (hw : ∀ c ∈ w, is_letter c) (hlive : trie_search (run ops) w = true) :
    ∃ before v after, ops = before ++ Op.insert v :: after ∧ fold v = fold w ∧
      ¬ LiveIn before w ∧ (∀ u, Op.delete u ∈ after → fold u ≠ fold w) ∧
      label_at (run ops).root w = v := by
  induction ops using List.reverseRecOn with
  | nil => simp [run_nil, trie_search_create] at hlive
  | append_singleton ops op ih =>
    have hops2 : ∀ o ∈ ops, ∀ c ∈ o.arg, is_letter c := fun o ho => hops o (by simp [ho])
    have hop : ∀ c ∈ op.arg, is_letter c := hops op (by simp)
    have ih2 := ih hops2
    rw [run_append_singleton] at hlive ⊢
    have hroot := run_root_not_null ops
    cases op with
    | insert u =>
      simp only [apply_op] at hlive ⊢
      cases hbefore : trie_search (run ops) w with
      | true =>
        obtain ⟨before, v, after, hsplit, hv, hnot, hdel, hlab⟩ := ih2 hbefore
        refine ⟨before, v, after ++ [Op.insert u], by rw [hsplit]; simp, hv, hnot, ?_, ?_⟩
        · intro x hx
          simp only [List.mem_append, List.mem_singleton, reduceCtorEq, or_false] at hx
          exact hdel x hx
        · rw [label_at_trie_insert _ _ _ hroot, if_neg, hlab]
          rintro ⟨-, hk, -, hterm⟩
          rw [trie_search_of_ne_nil _ _ hne] at hbefore
          rw [← terminal_at_congr_key w u hk, hbefore] at hterm
          exact Bool.noConfusion hterm
      | false =>
        rw [trie_search_insert _ _ _ hroot, hbefore] at hlive
        simp only [Bool.false_or, Bool.and_eq_true, decide_eq_true_eq] at hlive
        obtain ⟨⟨-, hk⟩, hl⟩ := hlive
        have hune : u ≠ [] := by
          rintro rfl
          cases w with
          | nil => exact hne rfl
          | cons c rest => simp [key] at hk
        refine ⟨ops, u, [], rfl, (fold_eq_of_key_eq w u hl hk).symm, ?_, by simp, ?_⟩
        · rw [← trie_search_run_iff ops hops2 w hne hw, hbefore]
          simp
        · rw [label_at_trie_insert _ _ _ hroot, if_pos]
          refine ⟨hune, hk, hl, ?_⟩
          rw [← terminal_at_congr_key w u hk, ← trie_search_of_ne_nil _ _ hne]
          exact hbefore
    | delete u =>
      simp only [apply_op] at hlive ⊢
      rw [trie_search_delete] at hlive
      simp only [Bool.and_eq_true, Bool.not_eq_true', decide_eq_false_iff_not] at hlive
      obtain ⟨before, v, after, hsplit, hv, hnot, hdel, hlab⟩ := ih2 hlive.1
      refine ⟨before, v, after ++ [Op.delete u], by rw [hsplit]; simp, hv, hnot, ?_, ?_⟩
      · intro x hx
        simp only [List.mem_append, List.mem_singleton, Op.delete.injEq] at hx
        rcases hx with hx | rfl
        · exact hdel x hx
        · exact fun hf => hlive.2 (key_eq_of_fold_eq x w hf).symm
      · rw [label_at_trie_delete, hlab]

/-- C14, amended: in every trie state reached by calls on letter-only words
of at most 255 characters (so that every copy into the 256-byte `word` field
is within bounds), the stored word of each terminal node is the exact
argument of the insert call that made the node terminal: an insert of a
case-equivalent word made while the word was not live, with no later delete
of it; that argument has at most 255 characters, so the field holds it
whole.  A re-insertion while the word is live does not change the stored
word; a re-insertion after a delete replaces it. -/
theorem label_is_insert_that_made_live (ops : List Op)
    (hops : ∀ op ∈ ops, (∀ c ∈ op.arg, is_letter c) ∧ op.arg.length ≤ 255)
    (w : List Int) (hne : w ≠ []) (hw : ∀ c ∈ w, is_letter c)
    (hlive : trie_search (run ops) w = true) :
    ∃ before v after, ops = before ++ Op.insert v :: after ∧ fold v = fold w ∧
      ¬ LiveIn before w ∧ (∀ u, Op.delete u ∈ after → fold u ≠ fold w) ∧
      label_at (run ops).root w = v ∧ v.length ≤ 255 := by
  obtain ⟨before, v, after, hsplit, hv, hnot, hdel, hlab⟩ :=
    label_at_run_of_live ops (fun op hop => (hops op hop).1) w hne hw hlive
  exact ⟨before, v, after, hsplit, hv, hnot, hdel, hlab,
    (hops (Op.insert v) (by rw [hsplit]; simp)).2⟩

/-- C14 at the history insert "Car", delete "car", insert "CAR". -/
theorem label_is_insert_that_made_live_witness :
    (∀ op ∈ [Op.insert (str "Car"), Op.delete (str "car"), Op.insert (str "CAR")],
        (∀ c ∈ op.arg, is_letter c) ∧ op.arg.length ≤ 255) ∧
      str "car" ≠ [] ∧ (∀ c ∈ str "car", is_letter c) ∧
      trie_search (run [Op.insert (str "Car"), Op.delete (str "car"), Op.insert (str "CAR")])
        (str "car") = true ∧
      ∃ before v after,
        [Op.insert (str "Car"), Op.delete (str "car"), Op.insert (str "CAR")] =
          before ++ Op.insert v :: after ∧
        fold v = fold (str "car") ∧ ¬ LiveIn before (str "car") ∧
        (∀ u, Op.delete u ∈ after → fold u ≠ fold (str "car")) ∧
        label_at (run [Op.insert (str "Car"), Op.delete (str "car"),
          Op.insert (str "CAR")]).root (str "car") = v ∧ v.length ≤ 255 :=
  ⟨by decide, by decide, by decide, by decide,
    label_is_insert_that_made_live
      [Op.insert (str "Car"), Op.delete (str "car"), Op.insert (str "CAR")] (by decide)
      (str "car") (by decide) (by decide) (by decide)⟩

/-- C14 as stated fails: after insert "Car", delete "car", insert "CAR" the
node of "car" is terminal, the first insert ever made along its path was
"Car", and its stored word is "CAR". -/
theorem label_replaced_after_delete :
    (∀ op ∈ [Op.insert (str "Car"), Op.delete (str "car"), Op.insert (str "CAR")],
        ∀ c ∈ op.arg, is_letter c) ∧
      trie_search (run [Op.insert (str "Car"), Op.delete (str "car"), Op.insert (str "CAR")])
        (str "car") = true ∧
      first_insert [Op.insert (str "Car"), Op.delete (str "car"), Op.insert (str "CAR")]
        (str "car") = some (str "Car") ∧
      label_at (run [Op.insert (str "Car"), Op.delete (str "car"),
        Op.insert (str "CAR")]).root (str "car") = str "CAR" ∧
      label_at (run [Op.insert (str "Car"), Op.delete (str "car"),
        Op.insert (str "CAR")]).root (str "car") ≠ str "Car" := by
  decide


/-! ## Insertion stopped by an invalid character -/

@[simp] theorem has_node_null (w : List Int) : has_node .null w = false := by
  simp [has_node]

@[simp] theorem has_node_nil_node (ch : Fin 26 → TrieNode) (e : Bool) (w0 : List Int) :
    has_node (.node ch e w0) [] = true := rfl

theorem has_node_cons_node (c : Int) (rest : List Int) (ch : Fin 26 → TrieNode) (e : Bool)
    (w0 : List Int) :
    has_node (.node ch e w0) (c :: rest) =
      match checked_index c with
      | none => false
      | some i => has_node (ch i) rest := by
  unfold has_node
  rw [walk_cons_node]
  cases checked_index c <;> rfl

theorem has_node_node_create (w : List Int) :
    has_node trie_node_create w = true ↔ w = [] := by
  cases w with
  | nil => simp [trie_node_create]
  | cons c rest =>
    rw [trie_node_create, has_node_cons_node]
    cases checked_index c <;> simp

theorem has_node_insert_child (n : TrieNode) (x : List Int) :
    has_node (if n.is_null then trie_node_create else n) x = true ↔
      has_node n x = true ∨ x = [] := by
  cases n with
  | null => simp [has_node_node_create]
  | node ch e w0 =>
    cases x with
    | nil => simp
    | cons d xr => simp

/-- After an insertion stopped by a non-letter behind the letters `u`, the
nodes are those present before and those on the path of `u`. -/
theorem has_node_insert_loop_invalid (word u : List Int) (c : Int) (v : List Int)
    (hc : ¬ is_letter c) :
    ∀ (cur : TrieNode) (x : List Int), cur.is_null = false → (∀ a ∈ u, is_letter a) →
      (has_node (insert_loop word (u ++ c :: v) cur).1 x = true ↔
        has_node cur x = true ∨ key x <+: key u) := by
  induction u with
  | nil =>
    intro cur x hcur _
    cases cur with
    | null => simp at hcur
    | node ch e w0 =>
      rw [List.nil_append, insert_loop, (checked_index_eq_none_iff c).mpr hc]
      simp only [key, List.map_nil, List.prefix_nil, List.map_eq_nil_iff]
      constructor
      · exact Or.inl
      · rintro (h | rfl)
        · exact h
        · rfl
  | cons a u ih =>
    intro cur x hcur hu
    cases cur with
    | null => simp at hcur
    | node ch e w0 =>
      have ha : is_letter a := hu a (List.mem_cons_self _ _)
      have hu2 : ∀ b ∈ u, is_letter b := fun b hb => hu b (List.mem_cons_of_mem _ hb)
      obtain ⟨i, hi⟩ := Option.isSome_iff_exists.mp ((checked_index_isSome_iff a).mpr ha)
      rw [List.cons_append, insert_loop, hi]
      simp only
      cases x with
      | nil => simp [key]
      | cons d xr =>
        rw [has_node_cons_node, has_node_cons_node]
        cases hd : checked_index d with
        | none => simp [key, hi, hd, List.cons_prefix_cons]
        | some j =>
          simp only
          by_cases hji : j = i
          · subst hji
            rw [Function.update_same, ih _ xr (insert_child_not_null _) hu2,
              has_node_insert_child]
            simp only [key, List.map_cons, hi, hd, List.cons_prefix_cons, true_and]
            constructor
            · rintro ((h | rfl) | h)
              · exact Or.inl h
              · exact Or.inr (List.nil_prefix)
              · exact Or.inr h
            · rintro (h | h)
              · exact Or.inl (Or.inl h)
              · exact Or.inr h
          · rw [Function.update_noteq hji]
            simp [key, hi, hd, hji, List.cons_prefix_cons]

theorem not_letters_of_invalid (u : List Int) (c : Int) (v : List Int) (hc : ¬ is_letter c) :
    ¬ ∀ a ∈ u ++ c :: v, is_letter a :=
  fun h => hc (h c (by simp))

/-- C15: for every trie `t` with an allocated root and every word
`u ++ [c] ++ v` where `u` consists of ASCII letters and `c` is not one,
`trie_insert` leaves `word_count`, every terminal flag and every stored word,
hence every search result, unchanged, while the resulting tree has a node
exactly at the paths that had one before and at the paths of the prefixes of
`u`: the nodes created for `u` remain, non-terminal, and nothing beyond `u` is
created. -/
theorem insert_invalid_keeps_words_and_prefix_nodes (t : Trie) (ht : t.root.is_null = false)
    (u : List Int) (c : Int) (v : List Int) (hu : ∀ a ∈ u, is_letter a)
    (hc : ¬ is_letter c) :
    (trie_insert t (u ++ c :: v)).word_count = t.word_count ∧
      (∀ x, terminal_at (trie_insert t (u ++ c :: v)).root x = terminal_at t.root x) ∧
      (∀ x, label_at (trie_insert t (u ++ c :: v)).root x = label_at t.root x) ∧
      (∀ x, trie_search (trie_insert t (u ++ c :: v)) x = trie_search t x) ∧
      (∀ x, has_node (trie_insert t (u ++ c :: v)).root x = true ↔
        has_node t.root x = true ∨ key x <+: key u) := by
  have hnl := not_letters_of_invalid u c v hc
  have hne : (u ++ c :: v).length ≠ 0 := by simp
  refine ⟨?_, fun x => ?_, fun x => ?_, fun x => ?_, fun x => ?_⟩
  · simp only [trie_insert, if_neg hne]
    rw [insert_loop_snd _ _ _ ht, decide_eq_false hnl]
    rfl
  · rw [trie_insert_root, if_neg hne, terminal_at_insert_loop _ _ _ _ ht, decide_eq_false hnl]
    simp
  · rw [label_at_trie_insert _ _ _ ht, if_neg]
    exact fun h => hnl h.2.2.1
  · rw [trie_search_insert _ _ _ ht, decide_eq_false hnl]
    simp
  · rw [trie_insert_root, if_neg hne]
    exact has_node_insert_loop_invalid _ u c v hc _ x ht hu

/-- C15 at the fresh trie and the argument "ca7t". -/
theorem insert_invalid_keeps_words_and_prefix_nodes_witness :
    trie_create.root.is_null = false ∧ (∀ a ∈ str "ca", is_letter a) ∧ ¬ is_letter 55 ∧
      (trie_insert trie_create (str "ca" ++ 55 :: str "t")).word_count =
        trie_create.word_count ∧
      has_node (trie_insert trie_create (str "ca" ++ 55 :: str "t")).root (str "ca") = true ∧
      has_node (trie_insert trie_create (str "ca" ++ 55 :: str "t")).root (str "cat") = false :=
  have h := insert_invalid_keeps_words_and_prefix_nodes trie_create (by decide) (str "ca") 55
    (str "t") (by decide) (by decide)
  ⟨by decide, by decide, by decide, h.1, by decide, by decide⟩


/-! ## Strings with a character that is not a letter -/

theorem walk_eq_none_of_invalid (s : List Int) (n : TrieNode) (hs : ∃ c ∈ s, ¬ is_letter c) :
    walk s n = none := by
  cases h : walk s n with
  | none => rfl
  | some m =>
    obtain ⟨c, hc, hnl⟩ := hs
    exact absurd (letters_of_walk s n m h c hc) hnl

theorem trie_search_of_walk_none (t : Trie) (s : List Int) (h : walk s t.root = none) :
    trie_search t s = false := by
  unfold trie_search
  rw [h]
  split_ifs <;> rfl

theorem trie_search_prefix_of_walk_none (t : Trie) (s : List Int) (h : walk s t.root = none) :
    trie_search_prefix t s = [] := by
  unfold trie_search_prefix
  rw [h]
  split_ifs <;> rfl

theorem trie_delete_of_not_found (t : Trie) (w : List Int) (h : trie_search t w = false) :
    trie_delete t w = t := by
  unfold trie_delete
  cases w with
  | nil => rfl
  | cons c rest =>
    have ht : terminal_at t.root (c :: rest) = false := by
      rw [trie_search_eq] at h
      simpa using h
    simp only [List.length_cons, Nat.add_one_ne_zero, if_false]
    rw [delete_loop_snd, delete_loop_fst_of_not_terminal _ _ ht, ht]
    rfl

theorem insert_loop_printed_of_invalid (s : List Int) (hs : ∃ c ∈ s, ¬ is_letter c) :
    ∃ c, insert_loop_printed s = some c ∧ c ∈ s ∧ ¬ is_letter c ∧
      ∃ u v, s = u ++ c :: v ∧ ∀ x ∈ u, is_letter x := by
  induction s with
  | nil => simp at hs
  | cons d rest ih =>
    rw [insert_loop_printed]
    cases hd : checked_index d with
    | none =>
      exact ⟨d, rfl, List.mem_cons_self _ _, (checked_index_eq_none_iff d).mp hd,
        [], rest, rfl, by simp⟩
    | some i =>
      have hl : is_letter d := (checked_index_isSome_iff d).mp (by simp [hd])
      obtain ⟨c, hc, hnl⟩ := hs
      have hcr : c ∈ rest := by
        rcases List.mem_cons.mp hc with rfl | h
        · exact absurd hl hnl
        · exact h
      obtain ⟨c2, h1, h2, h3, u, v, huv, hu⟩ := ih ⟨c, hcr, hnl⟩
      refine ⟨c2, h1, List.mem_cons_of_mem _ h2, h3, d :: u, v, by rw [huv]; rfl, ?_⟩
      intro x hx
      rcases List.mem_cons.mp hx with rfl | hx
      · exact hl
      · exact hu x hx

theorem insert_loop_printed_of_letters (s : List Int) (hs : ∀ c ∈ s, is_letter c) :
    insert_loop_printed s = none := by
  induction s with
  | nil => rfl
  | cons d rest ih =>
    rw [insert_loop_printed]
    obtain ⟨i, hi⟩ := Option.isSome_iff_exists.mp
      ((checked_index_isSome_iff d).mpr (hs d (List.mem_cons_self _ _)))
    rw [hi]
    exact ih (fun c hc => hs c (List.mem_cons_of_mem _ hc))

/-- C16, amended: for every string with a character that is not an ASCII
letter, `trie_insert` reports it by printing the first such character, the
one with only letters before it (and prints nothing for a letters-only
string); `trie_search`,
`trie_search_prefix` and `trie_delete` give exactly the outcome they give for
any string whose path is absent from the trie: false, no result, and an
unchanged trie. -/
theorem invalid_character_outcome (t : Trie) (s : List Int) (hs : ∃ c ∈ s, ¬ is_letter c) :
    (∃ c, trie_insert_printed s = some c ∧ c ∈ s ∧ ¬ is_letter c ∧
        ∃ u v, s = u ++ c :: v ∧ ∀ x ∈ u, is_letter x) ∧
      (∀ a, (∀ c ∈ a, is_letter c) → trie_insert_printed a = none) ∧
      ∀ a, has_node t.root a = false →
        trie_search t s = trie_search t a ∧
          trie_search_prefix t s = trie_search_prefix t a ∧
          trie_delete t s = trie_delete t a := by
  have hws := walk_eq_none_of_invalid s t.root hs
  refine ⟨?_, fun a ha => ?_, fun a ha => ?_⟩
  · obtain ⟨c, h1, h2, h3, h4⟩ := insert_loop_printed_of_invalid s hs
    refine ⟨c, ?_, h2, h3, h4⟩
    unfold trie_insert_printed
    rw [if_neg, h1]
    cases s with
    | nil => simp at h2
    | cons d rest => simp
  · unfold trie_insert_printed
    split_ifs
    · rfl
    · exact insert_loop_printed_of_letters a ha
  · have hwa : walk a t.root = none := by
      unfold has_node at ha
      cases h : walk a t.root with
      | none => rfl
      | some m => rw [h] at ha; simp at ha
    rw [trie_search_of_walk_none t s hws, trie_search_of_walk_none t a hwa,
      trie_search_prefix_of_walk_none t s hws, trie_search_prefix_of_walk_none t a hwa,
      trie_delete_of_not_found t s (trie_search_of_walk_none t s hws),
      trie_delete_of_not_found t a (trie_search_of_walk_none t a hwa)]
    exact ⟨rfl, rfl, rfl⟩

/-- C16 at the string "c4t" in the trie of `main`. -/
theorem invalid_character_outcome_witness :
    (∃ c ∈ str "c4t", ¬ is_letter c) ∧
      ∃ c, trie_insert_printed (str "c4t") = some c ∧ c ∈ str "c4t" ∧ ¬ is_letter c ∧
        ∃ u v, str "c4t" = u ++ c :: v ∧ ∀ x ∈ u, is_letter x :=
  ⟨⟨52, by decide, by decide⟩,
    (invalid_character_outcome scenario (str "c4t") ⟨52, by decide, by decide⟩).1⟩

/-- C16 as stated fails for `trie_search`, `trie_search_prefix` and
`trie_delete`: in the trie of `main` the string "c4t", which holds a digit, and
the well-formed absent word "cow" give the same return values and the same
resulting trie, and `trie_delete` returns nothing. -/
theorem invalid_character_not_told_apart :
    (∃ c ∈ str "c4t", ¬ is_letter c) ∧ (∀ c ∈ str "cow", is_letter c) ∧
      trie_search scenario (str "cow") = false ∧
      trie_search scenario (str "c4t") = trie_search scenario (str "cow") ∧
      trie_search_prefix scenario (str "c4t") = trie_search_prefix scenario (str "cow") ∧
      trie_delete scenario (str "c4t") = trie_delete scenario (str "cow") := by
  refine ⟨⟨52, by decide, by decide⟩, by decide, by decide, by decide, by decide, ?_⟩
  rw [trie_delete_of_not_found scenario (str "c4t") (by decide),
    trie_delete_of_not_found scenario (str "cow") (by decide)]


/-! ## The traversal of the whole trie -/

/-- C21: for every character `c`, the index computed by `char_to_index`
passes the range check `0 <= index < 26` if and only if `c` is an ASCII
letter; the upper-case and the lower-case form of a letter map to the same
index, `a`/`A` to 0, `b`/`B` to 1, ..., `z`/`Z` to 25, and distinct letters
have distinct indices. -/
theorem accepted_alphabet :
    (∀ c : Int, (0 ≤ char_to_index c ∧ char_to_index c < 26) ↔ is_letter c) ∧
      (∀ c : Int, (checked_index c).isSome = true ↔ is_letter c) ∧
      (∀ i : Fin 26, char_to_index (65 + (i.val : Int)) = i.val ∧
        char_to_index (97 + (i.val : Int)) = i.val ∧
        checked_index (65 + (i.val : Int)) = some i ∧
        checked_index (97 + (i.val : Int)) = some i) ∧
      (∀ i j : Fin 26, char_to_index (97 + (i.val : Int)) = char_to_index (97 + (j.val : Int)) ↔
        i = j) := by
  refine ⟨fun c => ?_, checked_index_isSome_iff, fun i => ?_, fun i j => ?_⟩
  · unfold char_to_index tolower is_letter
    split_ifs <;> omega
  · have hi := i.isLt
    have h1 : char_to_index (65 + (i.val : Int)) = i.val := by
      unfold char_to_index tolower
      split_ifs <;> omega
    have h2 : char_to_index (97 + (i.val : Int)) = i.val := by
      unfold char_to_index tolower
      split_ifs <;> omega
    refine ⟨h1, h2, ?_, checked_index_letter i⟩
    cases h : checked_index (65 + (i.val : Int)) with
    | none =>
      have := (checked_index_eq_none_iff _).mp h
      unfold is_letter at this
      omega
    | some j =>
      have hv := checked_index_val _ j h
      have h3 : tolower (65 + (i.val : Int)) - 97 = i.val := h1
      congr 1
      apply Fin.ext
      omega
  · have hi := i.isLt
    have hj := j.isLt
    unfold char_to_index tolower
    constructor
    · intro h
      apply Fin.ext
      split_ifs at h <;> omega
    · rintro rfl
      rfl

/-! ## No partial match on invalid input -/

/-- C26: for every trie `t` and every string `s` containing a character that
is not an ASCII letter, `trie_search` returns false, `trie_search_prefix`
returns count 0 and `trie_delete` leaves the whole trie state unchanged,
whatever the letters before the offending character spell. -/
theorem no_partial_match_on_invalid (t : Trie) (s : List Int)
    (hs : ∃ c ∈ s, ¬ is_letter c) :
    trie_search t s = false ∧ trie_search_prefix t s = [] ∧
      ( trie_search_prefix t s).length = 0 ∧ trie_delete t s = t := by
  have hw := walk_eq_none_of_invalid s t.root hs
  have h1 := trie_search_of_walk_none t s hw
  have h2 := trie_search_prefix_of_walk_none t s hw
  exact ⟨h1, h2, by rw [h2]; rfl, trie_delete_of_not_found t s h1⟩

/-- C26 at the string "car7" in the trie of `main`, where "car" is a live
word. -/
theorem no_partial_match_on_invalid_witness :
    (∃ c ∈ str "car7", ¬ is_letter c) ∧ trie_search scenario (str "car") = true ∧
      trie_search scenario (str "car7") = false ∧
      trie_search_prefix scenario (str "car7") = [] ∧
      trie_delete scenario (str "car7") = scenario :=
  have h := no_partial_match_on_invalid scenario (str "car7") ⟨55, by decide, by decide⟩
  ⟨⟨55, by decide, by decide⟩, by decide, h.1, h.2.1, h.2.2.2⟩


/-! ## Stored words play no part in the collection -/

theorem clear_flags_delete_loop (w : List Int) :
    ∀ (cur : TrieNode), clear_flags (delete_loop w cur).1 = clear_flags cur := by
  induction w with
  | nil =>
    intro cur
    cases cur with
    | null => rfl
    | node ch e w0 => rw [delete_loop]; cases e <;> rfl
  | cons c rest ih =>
    intro cur
    cases cur with
    | null => rfl
    | node ch e w0 =>
      rw [delete_loop]
      cases hc : checked_index c with
      | none => rfl
      | some i =>
        simp only
        cases hn : (ch i).is_null with
        | true => rfl
        | false =>
          simp only [Bool.false_eq_true, if_false, clear_flags]
          congr 1
          funext j
          by_cases hji : j = i
          · subst hji
            rw [Function.update_same, ih]
          · rw [Function.update_noteq hji]

theorem has_node_clear_flags (x : List Int) :
    ∀ (n : TrieNode), has_node (clear_flags n) x = has_node n x := by
  induction x with
  | nil =>
    intro n
    cases n <;> rfl
  | cons c rest ih =>
    intro n
    cases n with
    | null => rfl
    | node ch e w0 =>
      rw [clear_flags, has_node_cons_node, has_node_cons_node]
      cases checked_index c with
      | none => rfl
      | some i => exact ih _

theorem has_node_delete_loop (w x : List Int) (cur : TrieNode) :
    has_node (delete_loop w cur).1 x = has_node cur x := by
  rw [← has_node_clear_flags, clear_flags_delete_loop, has_node_clear_flags]

theorem trie_delete_word_count (t : Trie) (w : List Int) :
    (trie_delete t w).word_count =
      if trie_search t w = true then t.word_count - 1 else t.word_count := by
  unfold trie_delete
  cases w with
  | nil => simp [trie_search]
  | cons c rest =>
    simp only [List.length_cons, Nat.add_one_ne_zero, if_false]
    rw [delete_loop_snd, trie_search_of_ne_nil _ _ (by simp)]

/-- C25: for every trie `t` and string `w`, `trie_delete t w` removes and adds
no node: the tree without its flags (nodes, child links, stored words) is the
same before and after, so the same paths have a node and every stored word is
the same; a terminal flag can change only at the path of `w`, where it is
clear afterwards, and `word_count` is decremented by exactly 1 when `w` was
live and unchanged otherwise. -/
theorem delete_is_logical (t : Trie) (w : List Int) :
    clear_flags (trie_delete t w).root = clear_flags t.root ∧
      (∀ x, has_node (trie_delete t w).root x = has_node t.root x) ∧
      (∀ x, label_at (trie_delete t w).root x = label_at t.root x) ∧
      (∀ x, key x ≠ key w → terminal_at (trie_delete t w).root x = terminal_at t.root x) ∧
      terminal_at (trie_delete t w).root w = (w.isEmpty && terminal_at t.root w) ∧
      (trie_delete t w).word_count =
        (if trie_search t w = true then t.word_count - 1 else t.word_count) := by
  refine ⟨?_, fun x => ?_, fun x => label_at_trie_delete t w x, fun x hx => ?_, ?_,
    trie_delete_word_count t w⟩
  · rw [trie_delete_root]
    split_ifs
    · rfl
    · exact clear_flags_delete_loop _ _
  · rw [trie_delete_root]
    split_ifs
    · rfl
    · exact has_node_delete_loop _ _ _
  · rw [trie_delete_root]
    split_ifs
    · rfl
    · rw [terminal_at_delete_loop]
      simp [hx]
  · rw [trie_delete_root]
    cases w with
    | nil => simp
    | cons c rest =>
      simp only [List.length_cons, Nat.add_one_ne_zero, if_false]
      rw [terminal_at_delete_loop]
      simp


/-! ## Teardown -/

end TrieC

namespace MinHeapC

/-! ## Min-heap: swapping and the two repair loops -/

theorem swap_items_value (items : Nat → HeapItem) (a b i : Nat) :
    (swap_items items a b i).value =
      if i = b then (items a).value else if i = a then (items b).value
      else (items i).value := by
  unfold swap_items
  by_cases hb : i = b
  · subst hb; simp
  · by_cases ha : i = a
    · subst ha; simp [Function.update_noteq hb, hb]
    · simp [Function.update_noteq hb, Function.update_noteq ha, hb, ha]

theorem get_parent_lt (i : Nat) (h : 0 < i) : get_parent i < i := by
  unfold get_parent
  omega

theorem upInv_swap (items : Nat → HeapItem) (n k : Nat) (hk : 0 < k) (hkn : k < n)
    (hinv : UpInv items n k)
    (hgt : (items (get_parent k)).value > (items k).value) :
    UpInv (swap_items items (get_parent k) k) n (get_parent k) := by
  obtain ⟨h1, h2⟩ := hinv
  have hpk : get_parent k < k := get_parent_lt k hk
  constructor
  · intro i hi hin hne
    rw [swap_items_value, swap_items_value]
    by_cases hik : i = k
    · subst hik
      rw [if_neg (by omega), if_pos rfl, if_pos rfl]
      omega
    · rw [if_neg hik, if_neg hne]
      have hold := h1 i hi hin hik
      by_cases hpi : get_parent i = k
      · rw [if_pos hpi]
        exact h2 i hi hin hpi hk
      · rw [if_neg hpi]
        by_cases hpp : get_parent i = get_parent k
        · rw [if_pos hpp]
          rw [hpp] at hold
          omega
        · rw [if_neg hpp]
          exact hold
  · intro i hi hin hpi hp
    have hppk : get_parent (get_parent k) < get_parent k := get_parent_lt _ hp
    have hpn : get_parent k < n := by omega
    have hp1 := h1 (get_parent k) hp hpn (by omega)
    rw [swap_items_value, swap_items_value, if_neg (by omega), if_neg (by omega)]
    by_cases hik : i = k
    · subst hik
      rw [if_pos rfl]
      exact hp1
    · have hpil : get_parent i < i := get_parent_lt i hi
      rw [if_neg hik, if_neg (by omega)]
      have hold := h1 i hi hin hik
      rw [hpi] at hold
      omega

/-- The loop of `heapify_up` restores the heap property. -/
theorem heapify_up_heap (n : Nat) :
    ∀ (k : Nat) (items : Nat → HeapItem), k < n → UpInv items n k →
      is_min_heap (heapify_up items k) n := by
  intro k
  induction k using Nat.strong_induction_on with
  | _ k ih =>
    intro items hkn hinv
    rw [heapify_up]
    by_cases hk : k > 0
    · rw [dif_pos hk]
      by_cases hgt : (items (get_parent k)).value > (items k).value
      · rw [if_pos hgt]
        have hpk : get_parent k < k := get_parent_lt k hk
        exact ih (get_parent k) hpk _ (by omega) (upInv_swap items n k hk hkn hinv hgt)
      · rw [if_neg hgt]
        intro i hi hin
        by_cases hik : i = k
        · subst hik; omega
        · exact hinv.1 i hi hin hik
    · rw [dif_neg hk]
      intro i hi hin
      exact hinv.1 i hi hin (by omega)

theorem min_child_spec (items : Nat → HeapItem) (n k : Nat) :
    (min_child items n k = k ∧
        (get_left_child k < n → (items k).value ≤ (items (get_left_child k)).value) ∧
        (get_right_child k < n → (items k).value ≤ (items (get_right_child k)).value)) ∨
      ((min_child items n k = get_left_child k ∨ min_child items n k = get_right_child k) ∧
        min_child items n k < n ∧
        (items (min_child items n k)).value < (items k).value ∧
        (get_left_child k < n →
          (items (min_child items n k)).value ≤ (items (get_left_child k)).value) ∧
        (get_right_child k < n →
          (items (min_child items n k)).value ≤ (items (get_right_child k)).value)) := by
  have hl : get_left_child k ≠ k := by unfold get_left_child; omega
  have hr : get_right_child k ≠ k := by unfold get_right_child; omega
  have hlr : get_left_child k < get_right_child k := by
    unfold get_left_child get_right_child; omega
  simp only [min_child]
  by_cases h1 : get_left_child k < n ∧ (items (get_left_child k)).value < (items k).value
  · rw [if_pos h1]
    by_cases h2 : get_right_child k < n ∧
        (items (get_right_child k)).value < (items (get_left_child k)).value
    · rw [if_pos h2]
      right
      refine ⟨Or.inr rfl, h2.1, by omega, fun _ => by omega, fun _ => le_refl _⟩
    · rw [if_neg h2]
      right
      refine ⟨Or.inl rfl, h1.1, h1.2, fun _ => le_refl _, fun h => ?_⟩
      have := not_and.mp h2 h
      omega
  · rw [if_neg h1]
    by_cases h2 : get_right_child k < n ∧ (items (get_right_child k)).value < (items k).value
    · rw [if_pos h2]
      right
      refine ⟨Or.inr rfl, h2.1, h2.2, fun h => ?_, fun _ => le_refl _⟩
      have := not_and.mp h1 h
      omega
    · rw [if_neg h2]
      left
      refine ⟨rfl, fun h => ?_, fun h => ?_⟩
      · have := not_and.mp h1 h
        omega
      · have := not_and.mp h2 h
        omega

theorem child_cases (i k : Nat) (hi : 0 < i) (h : get_parent i = k) :
    i = get_left_child k ∨ i = get_right_child k := by
  unfold get_parent at h
  unfold get_left_child get_right_child
  omega

theorem get_parent_left (k : Nat) : get_parent (get_left_child k) = k := by
  unfold get_parent get_left_child
  omega

theorem get_parent_right (k : Nat) : get_parent (get_right_child k) = k := by
  unfold get_parent get_right_child
  omega

theorem downInv_swap (items : Nat → HeapItem) (n k m : Nat)
    (hinv : DownInv items n k) (hm : m = get_left_child k ∨ m = get_right_child k)
    (hmn : m < n) (hlt : (items m).value < (items k).value)
    (hl : get_left_child k < n → (items m).value ≤ (items (get_left_child k)).value)
    (hr : get_right_child k < n → (items m).value ≤ (items (get_right_child k)).value) :
    DownInv (swap_items items k m) n m := by
  obtain ⟨h1, h2⟩ := hinv
  have hpm : get_parent m = k := by
    rcases hm with rfl | rfl
    · exact get_parent_left k
    · exact get_parent_right k
  have hm0 : 0 < m := by
    rcases hm with rfl | rfl
    · unfold get_left_child; omega
    · unfold get_right_child; omega
  have hkm : k < m := by rw [← hpm]; exact get_parent_lt m hm0
  constructor
  · intro i hi hin hpi
    have hpil := get_parent_lt i hi
    rw [swap_items_value, swap_items_value, if_neg hpi]
    by_cases him : i = m
    · subst him
      rw [if_pos rfl, if_pos hpm]
      omega
    · rw [if_neg him]
      by_cases hik : i = k
      · subst hik
        rw [if_pos rfl, if_neg (by omega)]
        exact h2 m hm0 hmn hpm hi
      · rw [if_neg hik]
        by_cases hpk : get_parent i = k
        · rw [if_pos hpk]
          rcases child_cases i k hi hpk with rfl | rfl
          · exact hl hin
          · exact hr hin
        · rw [if_neg hpk]
          exact h1 i hi hin hpk
  · intro i hi hin hpi _
    have hpil := get_parent_lt i hi
    rw [swap_items_value, swap_items_value, hpm, if_neg (by omega), if_pos rfl,
      if_neg (by omega), if_neg (by omega)]
    have := h1 i hi hin (by omega)
    rw [hpi] at this
    exact this

/-- The loop of `heapify_down` restores the heap property. -/
theorem heapify_down_heap (n : Nat) :
    ∀ (d k : Nat) (items : Nat → HeapItem), n - k ≤ d → k < n → DownInv items n k →
      is_min_heap (heapify_down items n k) n := by
  intro d
  induction d with
  | zero => intro k items hd hkn _; omega
  | succ d ih =>
    intro k items hd hkn hinv
    rw [heapify_down]
    rcases min_child_spec items n k with ⟨hm, hl, hr⟩ | ⟨hm, hmn, hlt, hl, hr⟩
    · rw [dif_neg (by rw [hm]; simp)]
      intro i hi hin
      by_cases hpi : get_parent i = k
      · rw [hpi]
        rcases child_cases i k hi hpi with rfl | rfl
        · exact hl hin
        · exact hr hin
      · exact hinv.1 i hi hin hpi
    · have hkm : k < min_child items n k := by
        rcases hm with h | h
        · rw [h]; unfold get_left_child; omega
        · rw [h]; unfold get_right_child; omega
      rw [dif_pos (by omega)]
      exact ih _ _ (by omega) hmn (downInv_swap items n k _ hinv hm hmn hlt hl hr)

theorem root_le_of_is_min_heap (items : Nat → HeapItem) (n : Nat)
    (h : is_min_heap items n) :
    ∀ i, i < n → (items 0).value ≤ (items i).value := by
  intro i
  induction i using Nat.strong_induction_on with
  | _ i ih =>
    intro hin
    by_cases hi : i = 0
    · subst hi; exact le_refl _
    · have hpos : 0 < i := by omega
      have hp := get_parent_lt i hpos
      exact le_trans (ih (get_parent i) hp (by omega)) (h i hpos hin)


/-! ## Min-heap: the interface functions -/

theorem min_heap_insert_heap (heap : MinHeap) (value : Int) (label : Option (List Int))
    (h : is_min_heap heap.items heap.size) (hcap : heap.size < heap.capacity) :
    (min_heap_insert heap value label).2 = 1 ∧
      (min_heap_insert heap value label).1.size = heap.size + 1 ∧
      is_min_heap (min_heap_insert heap value label).1.items
        (min_heap_insert heap value label).1.size := by
  unfold min_heap_insert
  rw [if_neg (by omega)]
  refine ⟨rfl, rfl, ?_⟩
  simp only
  apply heapify_up_heap (heap.size + 1) heap.size _ (by omega)
  constructor
  · intro i hi hin hne
    have hp := get_parent_lt i hi
    rw [Function.update_noteq (by omega), Function.update_noteq hne]
    exact h i hi (by omega)
  · intro i hi hin hpi _
    have hp := get_parent_lt i hi
    omega

theorem min_heap_extract_min_heap (heap : MinHeap) (h : is_min_heap heap.items heap.size) :
    is_min_heap (min_heap_extract_min heap).1.items (min_heap_extract_min heap).1.size := by
  unfold min_heap_extract_min
  by_cases h0 : heap.size = 0
  · rw [if_pos h0]
    exact h
  · rw [if_neg h0]
    simp only
    by_cases h1 : heap.size - 1 > 0
    · rw [if_pos h1]
      apply heapify_down_heap (heap.size - 1) (heap.size - 1) 0 _ (by omega) h1
      constructor
      · intro i hi hin hpi
        rw [Function.update_noteq hpi, Function.update_noteq (by omega)]
        exact h i hi (by omega)
      · intro i _ _ _ hk
        omega
    · rw [if_neg h1]
      intro i hi hin
      omega

theorem min_heap_delete_heap (heap : MinHeap) (index : Int)
    (h : is_min_heap heap.items heap.size) :
    is_min_heap (min_heap_delete heap index).1.items (min_heap_delete heap index).1.size := by
  unfold min_heap_delete
  by_cases hbad : index < 0 ∨ index ≥ heap.size
  · rw [if_pos hbad]
    exact h
  · rw [if_neg hbad]
    simp only
    have hidx : index.toNat < heap.size := by omega
    generalize index.toNat = k at hidx ⊢
    by_cases hlast : k < heap.size - 1
    · rw [if_pos hlast]
      have hval : ∀ i, i ≠ k →
          (Function.update heap.items k (heap.items (heap.size - 1)) i) = heap.items i :=
        fun i hi => Function.update_noteq hi _ _
      by_cases hup : k > 0 ∧
          (Function.update heap.items k (heap.items (heap.size - 1)) k).value <
            (Function.update heap.items k (heap.items (heap.size - 1)) (get_parent k)).value
      · rw [if_pos hup]
        obtain ⟨hk, hlt⟩ := hup
        have hpk := get_parent_lt k hk
        rw [hval (get_parent k) (by omega), Function.update_same] at hlt
        have hedge := h k hk (by omega)
        apply heapify_up_heap (heap.size - 1) k _ hlast
        constructor
        · intro i hi hin hne
          have hp := get_parent_lt i hi
          rw [hval i hne]
          by_cases hpi : get_parent i = k
          · rw [hpi, Function.update_same]
            have := h i hi (by omega)
            rw [hpi] at this
            omega
          · rw [hval _ hpi]
            exact h i hi (by omega)
        · intro i hi hin hpi _
          have hp := get_parent_lt i hi
          rw [hval (get_parent k) (by omega), hval i (by omega)]
          have := h i hi (by omega)
          rw [hpi] at this
          omega
      · rw [if_neg hup]
        apply heapify_down_heap (heap.size - 1) (heap.size - 1) k _ (by omega) hlast
        constructor
        · intro i hi hin hpi
          have hp := get_parent_lt i hi
          by_cases hik : i = k
          · subst hik
            have := not_and.mp hup hi
            rw [Function.update_same] at this ⊢
            rw [hval (get_parent i) (by omega)] at this ⊢
            omega
          · rw [hval _ hpi, hval i hik]
            exact h i hi (by omega)
        · intro i hi hin hpi hk
          have hp := get_parent_lt i hi
          have hpk := get_parent_lt k hk
          rw [hval (get_parent k) (by omega), hval i (by omega)]
          have h1 := h i hi (by omega)
          have h2 := h k hk (by omega)
          rw [hpi] at h1
          omega
    · rw [if_neg hlast]
      intro i hi hin
      have hp := get_parent_lt i hi
      rw [Function.update_noteq (by omega), Function.update_noteq (by omega)]
      exact h i hi (by omega)

/-- C22: if `items[0..size)` satisfies `parent.value <= child.value` on every
parent/child pair, it still does after `min_heap_insert` (when
`size < capacity`, the call returning 1 with one item more), after
`min_heap_extract_min` and after `min_heap_delete` at any index; on a
non-empty heap `min_heap_extract_min` and `min_heap_peek` return 1 and the
item at the root, whose value is the minimum of all stored values, and on an
empty heap they return 0 and leave the heap unchanged. -/
theorem min_heap_property_preserved (heap : MinHeap)
    (h : is_min_heap heap.items heap.size) :
    (∀ value label, heap.size < heap.capacity →
        (min_heap_insert heap value label).2 = 1 ∧
        (min_heap_insert heap value label).1.size = heap.size + 1 ∧
        is_min_heap (min_heap_insert heap value label).1.items
          (min_heap_insert heap value label).1.size) ∧
      is_min_heap (min_heap_extract_min heap).1.items (min_heap_extract_min heap).1.size ∧
      (∀ index, is_min_heap (min_heap_delete heap index).1.items
        (min_heap_delete heap index).1.size) ∧
      (heap.size > 0 →
        (min_heap_extract_min heap).2 = (1, some (heap.items 0)) ∧
        (min_heap_extract_min heap).1.size = heap.size - 1 ∧
        min_heap_peek heap = (1, some (heap.items 0)) ∧
        ∀ i, i < heap.size → (heap.items 0).value ≤ (heap.items i).value) ∧
      (heap.size = 0 →
        min_heap_extract_min heap = (heap, 0, none) ∧ min_heap_peek heap = (0, none)) := by
  refine ⟨fun value label hcap => min_heap_insert_heap heap value label h hcap,
    min_heap_extract_min_heap heap h, fun index => min_heap_delete_heap heap index h,
    fun hpos => ?_, fun h0 => ?_⟩
  · have hne : heap.size ≠ 0 := by omega
    refine ⟨?_, ?_, ?_, root_le_of_is_min_heap heap.items heap.size h⟩
    · unfold min_heap_extract_min
      rw [if_neg hne]
    · unfold min_heap_extract_min
      rw [if_neg hne]
    · unfold min_heap_peek
      rw [if_neg hne]
  · constructor
    · unfold min_heap_extract_min
      rw [if_pos h0]
    · unfold min_heap_peek
      rw [if_pos h0]

theorem example_heap_is_min_heap : is_min_heap example_heap.items example_heap.size := by
  intro i hi hin
  have hin3 : i < 3 := hin
  interval_cases i <;> decide

/-- C22 at the heap with values 1, 3, 2: the extracted item has value 1. -/
theorem min_heap_property_preserved_witness :
    is_min_heap example_heap.items example_heap.size ∧
      is_min_heap (min_heap_extract_min example_heap).1.items
        (min_heap_extract_min example_heap).1.size ∧
      (min_heap_extract_min example_heap).2 = (1, some (example_heap.items 0)) ∧
      (example_heap.items 0).value = 1 :=
  have h := min_heap_property_preserved example_heap example_heap_is_min_heap
  ⟨example_heap_is_min_heap, h.2.1, (h.2.2.2.1 (by decide)).1, by decide⟩

end MinHeapC

namespace HashTableC

/-! ## Hash table: positions of a probe sequence -/

theorem hash_function_lt (key : List Int) (n : Nat) (hn : 0 < n) : hash_function key n < n :=
  Nat.mod_lt _ hn

theorem slot_injective (h i j n : Nat) (hi : i < n) (hj : j < n)
    (heq : (h + i) % n = (h + j) % n) : i = j := by
  have h1 : i % n = j % n := Nat.ModEq.add_left_cancel' h heq
  rwa [Nat.mod_eq_of_lt hi, Nat.mod_eq_of_lt hj] at h1

theorem slot_surjective (h p n : Nat) (hh : h < n) (hp : p < n) :
    ∃ j, j < n ∧ (h + j) % n = p := by
  refine ⟨(p + n - h) % n, Nat.mod_lt _ (by omega), ?_⟩
  rw [Nat.add_mod_mod]
  have : h + (p + n - h) = p + n := by omega
  rw [this, Nat.add_mod_right, Nat.mod_eq_of_lt hp]

/-! ## Hash table: the probing loop -/

theorem probe_succ (ht : HashTable) (key : List Int) (h fuel i : Nat) :
    probe ht key h (fuel + 1) i =
      if (ht.table ((h + i) % ht.size)).occupied = 0 then .empty ((h + i) % ht.size)
      else if (ht.table ((h + i) % ht.size)).occupied = 1 ∧
          (ht.table ((h + i) % ht.size)).key = key then .found ((h + i) % ht.size)
      else probe ht key h fuel (i + 1) := rfl

/-- Where the loop ends with `found`: an occupied slot with the key, at an
offset within the range probed. -/
theorem probe_found (ht : HashTable) (key : List Int) (h : Nat) :
    ∀ (fuel i c : Nat), probe ht key h fuel i = .found c →
      (ht.table c).occupied = 1 ∧ (ht.table c).key = key ∧
        ∃ j, i ≤ j ∧ j < i + fuel ∧ c = (h + j) % ht.size := by
  intro fuel
  induction fuel with
  | zero => intro i c hp; simp [probe] at hp
  | succ fuel ih =>
    intro i c hp
    rw [probe_succ] at hp
    split_ifs at hp with h0 h1
    · simp only [Probe.found.injEq] at hp
      subst hp
      exact ⟨h1.1, h1.2, i, le_refl _, by omega, rfl⟩
    · obtain ⟨a, b, j, hj1, hj2, hj3⟩ := ih (i + 1) c hp
      exact ⟨a, b, j, by omega, by omega, hj3⟩

/-- Where the loop ends with `empty`: a slot never used, every slot before it
in the probe order being passed over. -/
theorem probe_empty (ht : HashTable) (key : List Int) (h : Nat) :
    ∀ (fuel i c : Nat), probe ht key h fuel i = .empty c →
      (ht.table c).occupied = 0 ∧
        ∃ j, i ≤ j ∧ j < i + fuel ∧ c = (h + j) % ht.size ∧
          ∀ i', i ≤ i' → i' < j → Skipped ht key ((h + i') % ht.size) := by
  intro fuel
  induction fuel with
  | zero => intro i c hp; simp [probe] at hp
  | succ fuel ih =>
    intro i c hp
    rw [probe_succ] at hp
    split_ifs at hp with h0 h1
    · simp only [Probe.empty.injEq] at hp
      subst hp
      exact ⟨h0, i, le_refl _, by omega, rfl, fun i' h1 h2 => by omega⟩
    · obtain ⟨a, j, hj1, hj2, hj3, hj4⟩ := ih (i + 1) c hp
      refine ⟨a, j, by omega, by omega, hj3, fun i' h1' h2' => ?_⟩
      by_cases hi : i' = i
      · subst hi
        exact ⟨h0, h1⟩
      · exact hj4 i' (by omega) h2'

/-- When the loop runs out, every slot probed was passed over. -/
theorem probe_exhausted (ht : HashTable) (key : List Int) (h : Nat) :
    ∀ (fuel i : Nat), probe ht key h fuel i = .exhausted →
      ∀ j, i ≤ j → j < i + fuel → Skipped ht key ((h + j) % ht.size) := by
  intro fuel
  induction fuel with
  | zero => intro i _ j h1 h2; omega
  | succ fuel ih =>
    intro i hp j h1 h2
    rw [probe_succ] at hp
    split_ifs at hp with h0 h1'
    by_cases hi : j = i
    · subst hi
      exact ⟨h0, h1'⟩
    · exact ih (i + 1) hp j (by omega) (by omega)

/-- The loop passes over slots and stops at the first one that is not. -/
theorem probe_skip (ht : HashTable) (key : List Int) (h : Nat) :
    ∀ (d fuel i : Nat), (∀ i', i ≤ i' → i' < i + d → Skipped ht key ((h + i') % ht.size)) →
      probe ht key h (fuel + d) i = probe ht key h fuel (i + d) := by
  intro d
  induction d with
  | zero => intro fuel i _; rfl
  | succ d ih =>
    intro fuel i hs
    have h0 := hs i (le_refl _) (by omega)
    rw [← Nat.add_assoc, probe_succ, if_neg h0.1, if_neg h0.2,
      ih fuel (i + 1) (fun i' h1 h2 => hs i' (by omega) (by omega))]
    congr 1
    omega

theorem probe_reach_found (ht : HashTable) (key : List Int) (h j : Nat) (hj : j < ht.size)
    (hs : ∀ i', i' < j → Skipped ht key ((h + i') % ht.size))
    (hocc : (ht.table ((h + j) % ht.size)).occupied = 1)
    (hkey : (ht.table ((h + j) % ht.size)).key = key) :
    probe ht key h ht.size 0 = .found ((h + j) % ht.size) := by
  have hsplit : ht.size = (ht.size - j - 1 + 1) + j := by omega
  rw [hsplit, probe_skip ht key h j _ 0 (fun i' _ h2 => hs i' (by omega)), Nat.zero_add,
    probe_succ, ← hsplit, if_neg (by omega), if_pos ⟨hocc, hkey⟩]

theorem probe_reach_empty (ht : HashTable) (key : List Int) (h j : Nat) (hj : j < ht.size)
    (hs : ∀ i', i' < j → Skipped ht key ((h + i') % ht.size))
    (hocc : (ht.table ((h + j) % ht.size)).occupied = 0) :
    probe ht key h ht.size 0 = .empty ((h + j) % ht.size) := by
  have hsplit : ht.size = (ht.size - j - 1 + 1) + j := by omega
  rw [hsplit, probe_skip ht key h j _ 0 (fun i' _ h2 => hs i' (by omega)), Nat.zero_add,
    probe_succ, ← hsplit, if_pos hocc]

/-- The loop depends on the table only through the flags and the keys. -/
theorem probe_congr (ht ht' : HashTable) (key : List Int) (h : Nat)
    (hsize : ht'.size = ht.size)
    (hocc : ∀ c, (ht'.table c).occupied = (ht.table c).occupied)
    (hkey : ∀ c, (ht'.table c).key = (ht.table c).key) :
    ∀ (fuel i : Nat), probe ht' key h fuel i = probe ht key h fuel i := by
  intro fuel
  induction fuel with
  | zero => intro i; rfl
  | succ fuel ih =>
    intro i
    rw [probe_succ, probe_succ, hsize, hocc, hkey, ih]


/-! ## Hash table: the invariant -/

/-- With the invariant, the loop for a stored key ends at its slot. -/
theorem probe_of_stored (ht : HashTable) (hinv : ProbeInv ht) (k : List Int) (p : Nat)
    (hp : p < ht.size) (hocc : (ht.table p).occupied = 1) (hkey : (ht.table p).key = k) :
    probe ht k (hash_function k ht.size) ht.size 0 = .found p := by
  obtain ⟨j, hj, hslot, hbefore⟩ := hinv.1 p hp hocc
  rw [hkey] at hslot hbefore
  have hpn : 0 < ht.size := by omega
  have := probe_reach_found ht k (hash_function k ht.size) j hj
    (fun i' hi' => ⟨hbefore i' hi', fun hm => by
      have hq : (hash_function k ht.size + i') % ht.size < ht.size := Nat.mod_lt _ hpn
      have heq := hinv.2 _ p hq hp hm.1 hocc (by rw [hm.2, hkey])
      rw [← hslot] at heq
      have := slot_injective _ i' j ht.size (by omega) hj heq
      omega⟩)
    (by rw [hslot]; exact hocc) (by rw [hslot]; exact hkey)
  rw [this, hslot]

/-- The loop does not run out while a slot has never been used. -/
theorem probe_ne_exhausted (ht : HashTable) (k : List Int) (hun : has_unused ht) :
    probe ht k (hash_function k ht.size) ht.size 0 ≠ .exhausted := by
  intro hex
  obtain ⟨p, hp, hocc⟩ := hun
  have hpn : 0 < ht.size := by omega
  obtain ⟨j, hj, hslot⟩ := slot_surjective (hash_function k ht.size) p ht.size
    (hash_function_lt k ht.size hpn) hp
  have := probe_exhausted ht k _ ht.size 0 hex j (Nat.zero_le _) (by omega)
  rw [hslot] at this
  exact this.1 hocc

theorem probeInv_create (n : Nat) : ProbeInv (hash_table_create n) := by
  constructor
  · intro p _ hocc
    simp [hash_table_create] at hocc
  · intro p q _ _ hocc
    simp [hash_table_create] at hocc

theorem probeInv_insert (ht : HashTable) (hinv : ProbeInv ht) (k v : List Int)
    (hk : k.length ≤ 255) : ProbeInv (hash_table_insert ht k v) := by
  unfold hash_table_insert
  cases hpr : probe ht k (hash_function k ht.size) ht.size 0 with
  | exhausted => exact hinv
  | found c =>
    simp only
    constructor
    · intro p hp hocc
      have hoccs : ∀ q, ((Function.update ht.table c
          { key := (ht.table c).key, value := v.take 255,
            occupied := (ht.table c).occupied }) q).occupied = (ht.table q).occupied := by
        intro q
        by_cases hq : q = c
        · subst hq; simp
        · rw [Function.update_noteq hq]
      have hkeys : ∀ q, ((Function.update ht.table c
          { key := (ht.table c).key, value := v.take 255,
            occupied := (ht.table c).occupied }) q).key = (ht.table q).key := by
        intro q
        by_cases hq : q = c
        · subst hq; simp
        · rw [Function.update_noteq hq]
      simp only [hoccs, hkeys] at hocc ⊢
      exact hinv.1 p hp hocc
    · intro p q hp hq h1 h2 h3
      have hoccs : ∀ q, ((Function.update ht.table c
          { key := (ht.table c).key, value := v.take 255,
            occupied := (ht.table c).occupied }) q).occupied = (ht.table q).occupied := by
        intro q
        by_cases hq : q = c
        · subst hq; simp
        · rw [Function.update_noteq hq]
      have hkeys : ∀ q, ((Function.update ht.table c
          { key := (ht.table c).key, value := v.take 255,
            occupied := (ht.table c).occupied }) q).key = (ht.table q).key := by
        intro q
        by_cases hq : q = c
        · subst hq; simp
        · rw [Function.update_noteq hq]
      simp only [hoccs, hkeys] at h1 h2 h3
      exact hinv.2 p q hp hq h1 h2 h3
  | empty c =>
    simp only
    obtain ⟨hc0, j0, -, hj0, hcj, hskip⟩ := probe_empty ht k _ ht.size 0 c hpr
    have hktake : k.take 255 = k := List.take_of_length_le hk
    rw [hktake]
    have hnew : ∀ q, q ≠ c → (Function.update ht.table c
        { key := k, value := v.take 255, occupied := 1 }) q = ht.table q :=
      fun q hq => Function.update_noteq hq _ _
    have hnewc : (Function.update ht.table c
        { key := k, value := v.take 255, occupied := 1 }) c =
        { key := k, value := v.take 255, occupied := 1 } := Function.update_same _ _ _
    have hused : ∀ q, (ht.table q).occupied ≠ 0 → ((Function.update ht.table c
        { key := k, value := v.take 255, occupied := 1 }) q).occupied ≠ 0 := by
      intro q hq
      by_cases hqc : q = c
      · subst hqc; rw [hnewc]; simp
      · rw [hnew q hqc]; exact hq
    have hnotstored : ∀ q, q < ht.size → (ht.table q).occupied = 1 → (ht.table q).key ≠ k := by
      intro q hq hocc hkey
      have := probe_of_stored ht hinv k q hq hocc hkey
      rw [hpr] at this
      exact Probe.noConfusion this
    constructor
    · intro p hp hocc
      dsimp only at hp hocc ⊢
      by_cases hpc : p = c
      · subst hpc
        rw [hnewc]
        dsimp only
        refine ⟨j0, by omega, hcj.symm, fun i hi => hused _ (hskip i (Nat.zero_le _) hi).1⟩
      · rw [hnew p hpc] at hocc ⊢
        obtain ⟨j, hj, hslot, hbefore⟩ := hinv.1 p hp hocc
        exact ⟨j, hj, hslot, fun i hi => hused _ (hbefore i hi)⟩
    · intro p q hp hq h1 h2 h3
      dsimp only at hp hq h1 h2 h3
      by_cases hpc : p = c
      · by_cases hqc : q = c
        · rw [hpc, hqc]
        · subst hpc
          rw [hnewc] at h3
          rw [hnew q hqc] at h2 h3
          exact absurd h3.symm (hnotstored q hq h2)
      · by_cases hqc : q = c
        · subst hqc
          rw [hnewc] at h3
          rw [hnew p hpc] at h1 h3
          exact absurd h3 (hnotstored p hp h1)
        · rw [hnew p hpc] at h1 h3
          rw [hnew q hqc] at h2 h3
          exact hinv.2 p q hp hq h1 h2 h3

theorem probeInv_delete (ht : HashTable) (hinv : ProbeInv ht) (k : List Int) :
    ProbeInv (hash_table_delete ht k).1 := by
  unfold hash_table_delete
  cases hpr : probe ht k (hash_function k ht.size) ht.size 0 with
  | exhausted => exact hinv
  | empty c => exact hinv
  | found c =>
    simp only
    have hnew : ∀ q, q ≠ c → (Function.update ht.table c
        { key := (ht.table c).key, value := (ht.table c).value, occupied := 2 }) q =
        ht.table q :=
      fun q hq => Function.update_noteq hq _ _
    have hnewc : (Function.update ht.table c
        { key := (ht.table c).key, value := (ht.table c).value, occupied := 2 }) c =
        { key := (ht.table c).key, value := (ht.table c).value, occupied := 2 } :=
      Function.update_same _ _ _
    have hused : ∀ q, (ht.table q).occupied ≠ 0 → ((Function.update ht.table c
        { key := (ht.table c).key, value := (ht.table c).value, occupied := 2 })
          q).occupied ≠ 0 := by
      intro q hq
      by_cases hqc : q = c
      · subst hqc; rw [hnewc]; simp
      · rw [hnew q hqc]; exact hq
    have hone : ∀ q, ((Function.update ht.table c
        { key := (ht.table c).key, value := (ht.table c).value, occupied := 2 })
          q).occupied = 1 → q ≠ c := by
      intro q hq hqc
      subst hqc
      rw [hnewc] at hq
      simp at hq
    constructor
    · intro p hp hocc
      dsimp only at hp hocc ⊢
      have hpc := hone p hocc
      rw [hnew p hpc] at hocc ⊢
      obtain ⟨j, hj, hslot, hbefore⟩ := hinv.1 p hp hocc
      exact ⟨j, hj, hslot, fun i hi => hused _ (hbefore i hi)⟩
    · intro p q hp hq h1 h2 h3
      dsimp only at hp hq h1 h2 h3
      have hpc := hone p h1
      have hqc := hone q h2
      rw [hnew p hpc] at h1 h3
      rw [hnew q hqc] at h2 h3
      exact hinv.2 p q hp hq h1 h2 h3

theorem hash_table_insert_size (ht : HashTable) (k v : List Int) :
    (hash_table_insert ht k v).size = ht.size := by
  unfold hash_table_insert
  cases probe ht k (hash_function k ht.size) ht.size 0 <;> rfl

theorem hash_table_delete_size (ht : HashTable) (k : List Int) :
    (hash_table_delete ht k).1.size = ht.size := by
  unfold hash_table_delete
  cases probe ht k (hash_function k ht.size) ht.size 0 <;> rfl

theorem run_table_append_singleton (n : Nat) (ops : List HOp) (op : HOp) :
    run_table n (ops ++ [op]) = apply_hop (run_table n ops) op := by
  simp [run_table, List.foldl_append]

/-- Every table reached by calls whose inserted keys have at most 255
characters has the size it was created with and satisfies the invariant. -/
theorem run_table_inv (n : Nat) (ops : List HOp)
    (hops : ∀ k v, HOp.insert k v ∈ ops → k.length ≤ 255) :
    (run_table n ops).size = n ∧ ProbeInv (run_table n ops) := by
  induction ops using List.reverseRecOn with
  | nil => exact ⟨rfl, probeInv_create n⟩
  | append_singleton ops op ih =>
    obtain ⟨hs, hinv⟩ := ih (fun k v h => hops k v (by simp [h]))
    rw [run_table_append_singleton]
    cases op with
    | insert k v =>
      exact ⟨by rw [apply_hop, hash_table_insert_size, hs],
        probeInv_insert _ hinv k v (hops k v (by simp))⟩
    | delete k =>
      exact ⟨by rw [apply_hop, hash_table_delete_size, hs], probeInv_delete _ hinv k⟩


/-! ## Hash table: lookup after insertion and deletion -/

theorem hash_table_get_of_probe (ht : HashTable) (k : List Int) (c : Nat)
    (h : probe ht k (hash_function k ht.size) ht.size 0 = .found c) :
    hash_table_get ht k = some (ht.table c).value := by
  unfold hash_table_get
  rw [h]

/-- After an insert that found the key or an unused slot, the key is looked
up with the inserted value, and it is stored. -/
theorem hash_table_get_insert (ht : HashTable) (hinv : ProbeInv ht) (k v : List Int)
    (hk : k.length ≤ 255) (hv : v.length ≤ 255) (hcond : stored ht k ∨ has_unused ht) :
    hash_table_get (hash_table_insert ht k v) k = some v ∧
      stored (hash_table_insert ht k v) k := by
  have hktake : k.take 255 = k := List.take_of_length_le hk
  have hvtake : v.take 255 = v := List.take_of_length_le hv
  cases hpr : probe ht k (hash_function k ht.size) ht.size 0 with
  | exhausted =>
    exfalso
    rcases hcond with ⟨p, hp, hocc, hkey⟩ | hun
    · have := probe_of_stored ht hinv k p hp hocc hkey
      rw [hpr] at this
      exact Probe.noConfusion this
    · exact probe_ne_exhausted ht k hun hpr
  | found c =>
    obtain ⟨hocc, hkey, j, -, hj, hcj⟩ := probe_found ht k _ ht.size 0 c hpr
    have hsz : 0 < ht.size := by omega
    have hc : c < ht.size := by rw [hcj]; exact Nat.mod_lt _ hsz
    have hins : hash_table_insert ht k v =
        (⟨Function.update ht.table c
            ⟨(ht.table c).key, v.take 255, (ht.table c).occupied⟩, ht.size, ht.count⟩ :
          HashTable) := by
      unfold hash_table_insert
      rw [hpr]
    rw [hins]
    have hprobe : probe (⟨Function.update ht.table c
            ⟨(ht.table c).key, v.take 255, (ht.table c).occupied⟩, ht.size, ht.count⟩ :
          HashTable) k (hash_function k ht.size) ht.size 0 =
        .found c := by
      rw [← hpr]
      refine probe_congr ht (⟨Function.update ht.table c
            ⟨(ht.table c).key, v.take 255, (ht.table c).occupied⟩, ht.size, ht.count⟩ :
          HashTable) k _ rfl (fun q => ?_) (fun q => ?_) _ _
      · by_cases hq : q = c
        · subst hq; simp
        · dsimp only; rw [Function.update_noteq hq]
      · by_cases hq : q = c
        · subst hq; simp
        · dsimp only; rw [Function.update_noteq hq]
    constructor
    · rw [hash_table_get_of_probe _ k c hprobe]
      simp [hvtake]
    · exact ⟨c, hc, by simp [hocc], by simp [hkey]⟩
  | empty c =>
    obtain ⟨hc0, j0, -, hj0, hcj, hskip⟩ := probe_empty ht k _ ht.size 0 c hpr
    have hsz : 0 < ht.size := by omega
    have hc : c < ht.size := by rw [hcj]; exact Nat.mod_lt _ hsz
    have hins : hash_table_insert ht k v =
        (⟨Function.update ht.table c ⟨k.take 255, v.take 255, 1⟩, ht.size, ht.count + 1⟩ :
          HashTable) := by
      unfold hash_table_insert
      rw [hpr]
    rw [hins, hktake, hvtake]
    have hprobe : probe (⟨Function.update ht.table c ⟨k, v, 1⟩, ht.size, ht.count + 1⟩ : HashTable) k (hash_function k ht.size) ht.size 0 =
        .found c := by
      have := probe_reach_found (⟨Function.update ht.table c ⟨k, v, 1⟩, ht.size, ht.count + 1⟩ : HashTable) k (hash_function k ht.size) j0
        (by simpa using hj0)
        (fun i' hi' => by
          have hs := hskip i' (Nat.zero_le _) hi'
          have hne : (hash_function k ht.size + i') % ht.size ≠ c := by
            intro heq
            rw [heq] at hs
            exact hs.1 hc0
          unfold Skipped
          dsimp only
          rw [Function.update_noteq hne]
          exact hs)
        (by dsimp only; rw [← hcj, Function.update_same])
        (by dsimp only; rw [← hcj, Function.update_same])
      dsimp only at this
      rw [← hcj] at this
      exact this
    constructor
    · rw [hash_table_get_of_probe _ k c hprobe]
      simp
    · exact ⟨c, hc, by simp, by simp⟩

/-- After a delete the key is not found, whatever was stored. -/
theorem hash_table_get_delete (ht : HashTable) (hinv : ProbeInv ht) (k : List Int) :
    hash_table_get (hash_table_delete ht k).1 k = none := by
  cases hpr : probe ht k (hash_function k ht.size) ht.size 0 with
  | exhausted =>
    have hdel : (hash_table_delete ht k).1 = ht := by
      unfold hash_table_delete
      rw [hpr]
    rw [hdel]
    unfold hash_table_get
    rw [hpr]
  | empty c =>
    have hdel : (hash_table_delete ht k).1 = ht := by
      unfold hash_table_delete
      rw [hpr]
    rw [hdel]
    unfold hash_table_get
    rw [hpr]
  | found c =>
    obtain ⟨hocc, hkey, j, -, hj, hcj⟩ := probe_found ht k _ ht.size 0 c hpr
    have hsz : 0 < ht.size := by omega
    have hc : c < ht.size := by rw [hcj]; exact Nat.mod_lt _ hsz
    have hdel : (hash_table_delete ht k).1 =
        (⟨Function.update ht.table c ⟨(ht.table c).key, (ht.table c).value, 2⟩, ht.size,
          ht.count - 1⟩ : HashTable) := by
      unfold hash_table_delete
      rw [hpr]
    rw [hdel]
    cases hpr2 : probe (⟨Function.update ht.table c ⟨(ht.table c).key, (ht.table c).value, 2⟩, ht.size,
          ht.count - 1⟩ : HashTable) k (hash_function k ht.size) ht.size 0 with
    | exhausted =>
      unfold hash_table_get
      rw [hpr2]
    | empty c2 =>
      unfold hash_table_get
      rw [hpr2]
    | found c2 =>
      exfalso
      obtain ⟨hocc2, hkey2, j2, -, hj2, hcj2⟩ := probe_found _ k _ ht.size 0 c2 hpr2
      dsimp only at hocc2 hkey2 hcj2
      have hc2 : c2 < ht.size := by rw [hcj2]; exact Nat.mod_lt _ hsz
      by_cases hcc : c2 = c
      · subst hcc
        rw [Function.update_same] at hocc2
        simp at hocc2
      · rw [Function.update_noteq hcc] at hocc2 hkey2
        exact hcc (hinv.2 c2 c hc2 hc hocc2 hocc (by rw [hkey2, hkey]))


/-- C23, amended to histories whose inserted keys are shorter than 256
characters: for every table reached from `hash_table_create n` by such
inserts and by deletes, and every key `k` and value `v` shorter than 256
characters, if `k` is stored or some slot has never been used, then after
`hash_table_insert(k, v)` the call `hash_table_get(k)` returns `v`, exactly
one slot is occupied with `k`, and after `hash_table_delete(k)`, following
the insert or on the table as it was, `hash_table_get(k)` returns `NULL`. -/
theorem get_after_insert_and_delete (n : Nat) (ops : List HOp)
    (hops : ∀ k v, HOp.insert k v ∈ ops → k.length ≤ 255) (k v : List Int)
    (hk : k.length ≤ 255) (hv : v.length ≤ 255)
    (hcond : stored (run_table n ops) k ∨ has_unused (run_table n ops)) :
    hash_table_get (hash_table_insert (run_table n ops) k v) k = some v ∧
      (∃ p, (p < n ∧ ((hash_table_insert (run_table n ops) k v).table p).occupied = 1 ∧
            ((hash_table_insert (run_table n ops) k v).table p).key = k) ∧
          ∀ q, q < n → ((hash_table_insert (run_table n ops) k v).table q).occupied = 1 →
            ((hash_table_insert (run_table n ops) k v).table q).key = k → q = p) ∧
      hash_table_get (hash_table_delete (hash_table_insert (run_table n ops) k v) k).1 k =
        none ∧
      hash_table_get (hash_table_delete (run_table n ops) k).1 k = none := by
  obtain ⟨hsize, hinv⟩ := run_table_inv n ops hops
  obtain ⟨hget, p, hp, hocc, hkey⟩ := hash_table_get_insert _ hinv k v hk hv hcond
  have hinv2 := probeInv_insert _ hinv k v hk
  have hsize2 : (hash_table_insert (run_table n ops) k v).size = n := by
    rw [hash_table_insert_size, hsize]
  rw [hsize2] at hp
  refine ⟨hget, ⟨p, ⟨hp, hocc, hkey⟩, fun q hq hoq hkq => ?_⟩,
    hash_table_get_delete _ hinv2 k, hash_table_get_delete _ hinv k⟩
  exact hinv2.2 q p (by rw [hsize2]; exact hq) (by rw [hsize2]; exact hp) hoq hocc
    (by rw [hkq, hkey])

theorem bookmarks_keys_short :
    ∀ k v, HOp.insert k v ∈ [HOp.insert (TrieC.str "github.com") (TrieC.str "GitHub"),
        HOp.insert (TrieC.str "stackoverflow.com") (TrieC.str "Stack Overflow")] →
      k.length ≤ 255 := by
  intro k v h
  simp only [List.mem_cons, HOp.insert.injEq, List.mem_singleton, List.not_mem_nil,
    or_false] at h
  rcases h with ⟨rfl, -⟩ | ⟨rfl, -⟩ <;> decide

/-- C23 at the table of `main` after two inserts: the update of
"github.com". -/
theorem get_after_insert_and_delete_witness :
    (∀ k v, HOp.insert k v ∈ [HOp.insert (TrieC.str "github.com") (TrieC.str "GitHub"),
          HOp.insert (TrieC.str "stackoverflow.com") (TrieC.str "Stack Overflow")] →
        k.length ≤ 255) ∧
      (TrieC.str "github.com").length ≤ 255 ∧ (TrieC.str "GitHub (Updated)").length ≤ 255 ∧
      stored bookmarks_table (TrieC.str "github.com") ∧
      hash_table_get (hash_table_insert bookmarks_table (TrieC.str "github.com")
        (TrieC.str "GitHub (Updated)")) (TrieC.str "github.com") =
          some (TrieC.str "GitHub (Updated)") :=
  have hst : stored bookmarks_table (TrieC.str "github.com") := by
    unfold stored
    decide
  ⟨bookmarks_keys_short, by decide, by decide, hst,
    (get_after_insert_and_delete 10 _ bookmarks_keys_short (TrieC.str "github.com")
      (TrieC.str "GitHub (Updated)") (by decide) (by decide) (Or.inl hst)).1⟩

set_option maxRecDepth 100000 in
/-- C23 as stated fails after an insert with a key of 256 characters, which
is stored cut to 255: for that stored key `k`, itself shorter than 256
characters, and a table with an unused slot, `hash_table_insert(k, v)` makes
a second entry for `k` and, after `hash_table_delete(k)`,
`hash_table_get(k)` returns the other entry's value instead of `NULL`. -/
theorem second_entry_after_truncated_key :
    short_key.length ≤ 255 ∧ (TrieC.str "v").length ≤ 255 ∧
      (truncated_table.table 0).occupied = 1 ∧ (truncated_table.table 0).key = short_key ∧
      (truncated_table.table 1).occupied = 0 ∧
      ((hash_table_insert truncated_table short_key (TrieC.str "v")).table 0).occupied = 1 ∧
      ((hash_table_insert truncated_table short_key (TrieC.str "v")).table 0).key =
        short_key ∧
      ((hash_table_insert truncated_table short_key (TrieC.str "v")).table 1).occupied = 1 ∧
      ((hash_table_insert truncated_table short_key (TrieC.str "v")).table 1).key =
        short_key ∧
      hash_table_get (hash_table_delete
        (hash_table_insert truncated_table short_key (TrieC.str "v")) short_key).1
          short_key = some (TrieC.str "x") := by
  decide

end HashTableC
